import Mathlib

/-!
# Verification of the onmount lifecycle synchronization engine

Shallow embedding of `src/index.js`: behaviors are (selector, enter action,
exit action, options) records, nodes are identified by natural numbers, and
the DOM is an external collaborator (parent links, query results, selector
matching) packaged in a `Dom` record.  Element state tags (`el['__onmount:N']`)
are modelled as an association list keyed by (element, key string).  JS enter
and exit actions are arbitrary callbacks; here their observable contribution
is modelled by boolean result functions (`true` stands for any value that is
not the literal `false`).  In addition to the JS state, the model state keeps
append-only call traces (`enterCalls`, `attachTrace`, `exitProcess`,
`exitCalls`): these are pure observation instrumentation used to state
"action invoked exactly once" properties; they are appended exactly at the
program points where the corresponding JS call happens and are never read by
the modelled code.
-/

namespace Onmount

/-- The token object `{ id: 'c' + cid, selector }` built in `visitEnter`
(src/index.js line 197); the numeric suffix of the id is kept as a `Nat`. -/
structure Token where
  id : Nat
  selector : String
deriving DecidableEq, Repr

/-- One behavior (src/index.js lines 155-163).  `initRet el` is whether the
enter action's return value at `el` differs from the literal `false`;
`hasExit` is whether an exit action was supplied, and `exitRet el st` whether
its return value (called with state argument `st`) differs from `false`.
`key` models the string `'__onmount:' + bid`, where `bid` has already been
incremented by `this.id = 'b' + bid++`.  `loaded` is the active list; `none`
entries are the `undefined` tombstones left by `doExit`. -/
structure Behavior where
  id : Nat
  selector : String
  initRet : Nat → Bool
  hasExit : Bool
  exitRet : Nat → Option Token → Bool
  key : String
  detectMutate : Bool
  loaded : List (Option Nat)

/-- The external tree collaborator: a fixed root (`document.documentElement`),
parent links, selector matching and `querySelectorAll` results.  `depth` is a
bound on the length of ancestor chains (DOM trees are finite); it fuels the
`isAttached` ascent. -/
structure Dom where
  docElement : Nat
  parent : Nat → Option Nat
  depth : Nat
  query : String → List Nat
  elMatches : Nat → String → Bool

/-- One MutationObserver record: the added and removed nodes reported by the
change-notification collaborator (src/index.js lines 96-107). -/
structure Mutation where
  addedNodes : List Nat
  removedNodes : List Nat

/-- Global mutable module state: the `bid`/`cid` counters, the behavior
registry, all element state tags, plus the observation-only call traces.
`handlers` and `selectors` of src/index.js are derivable views of
`behaviors` (registration pushes the behavior and its poll closure
together, in the same order), so they are not stored separately.
Trace entries are tagged with the owning behavior's `id`. -/
structure OState where
  bid : Nat
  cid : Nat
  behaviors : List Behavior
  tags : List (Nat × String × Token)
  enterCalls : List (Nat × Nat × Token)
  attachTrace : List Token
  exitProcess : List (Nat × Nat)
  exitCalls : List (Nat × Nat × Option Token)

/-- The module-load state: counters at zero, all registries empty
(src/index.js lines 11-12 and 321: `onmount.reset()`). -/
def OState.start : OState :=
  { bid := 0, cid := 0, behaviors := [], tags := [],
    enterCalls := [], attachTrace := [], exitProcess := [], exitCalls := [] }

/-- `onmount.reset()` (src/index.js lines 145-149): clears the registries but
leaves the counters and the element tags alone. -/
def reset (st : OState) : OState :=
  { st with behaviors := [] }

/-! ## Element state tags -/

/-- Reading `el[key]`: the tag attached to element `el` under `key` in the
property table. -/
def getTag : List (Nat × String × Token) → Nat → String → Option Token
  | [], _, _ => none
  | t :: rest, el, key =>
    if t.1 = el ∧ t.2.1 = key then some t.2.2 else getTag rest el key

/-- `delete el[key]`: drop every entry of element `el` under `key`. -/
def delTag : List (Nat × String × Token) → Nat → String →
    List (Nat × String × Token)
  | [], _, _ => []
  | t :: rest, el, key =>
    if t.1 = el ∧ t.2.1 = key then delTag rest el key
    else t :: delTag rest el key

/-- `el[key] = tok`. -/
def setTag (tags : List (Nat × String × Token)) (el : Nat) (key : String)
    (tok : Token) : List (Nat × String × Token) :=
  (el, key, tok) :: delTag tags el key

/-! ## Attachment check -/

/-- The ascent loop of `isAttached` (src/index.js lines 236-241), fuelled:
`while (el) { if (el === document.documentElement) return true;
el = el.parentElement }`. -/
def isAttachedAux (parent : Nat → Option Nat) (rootEl : Nat) :
    Nat → Nat → Bool
  | 0, _ => false
  | fuel + 1, el =>
    if el = rootEl then true
    else
      match parent el with
      | some p => isAttachedAux parent rootEl fuel p
      | none => false

/-- `isAttached(el)`: walking parent links reaches the document element. -/
def isAttached (d : Dom) (el : Nat) : Bool :=
  isAttachedAux d.parent d.docElement (d.depth + 1) el

/-! ## Behavior operations -/

/-- Read the current entry of behavior `j`'s active list at position `i`
(a live read of `loaded[i]` during iteration). -/
def loadedAt (st : OState) (j i : Nat) : Option Nat :=
  match st.behaviors[j]? with
  | some be => be.loaded.getD i none
  | none => none

/-- Replace behavior `j`'s record. -/
def setBe (st : OState) (j : Nat) (be : Behavior) : OState :=
  { st with behaviors := st.behaviors.set j be }

/-- `Behavior.prototype.visitEnter` (src/index.js lines 195-203): skip if the
element already carries this behavior's tag; otherwise build the token from
the current `cid`, invoke the enter action, and unless it returned the
literal `false` attach the token, push the element and bump `cid`. -/
def visitEnter (j el : Nat) (st : OState) : OState :=
  match st.behaviors[j]? with
  | none => st
  | some be =>
    if (getTag st.tags el be.key).isSome then st
    else
      let options : Token := { id := st.cid, selector := be.selector }
      let st1 := { st with enterCalls := st.enterCalls ++ [(be.id, el, options)] }
      if be.initRet el then
        { st1 with
          tags := setTag st1.tags el be.key options
          behaviors := st1.behaviors.set j { be with loaded := be.loaded ++ [some el] }
          attachTrace := st1.attachTrace ++ [options]
          cid := st1.cid + 1 }
      else st1

/-- First half of `Behavior.prototype.doExit` (src/index.js lines 224-226):
resolve the index (`indexOf` when the caller passed none; a miss, JS `-1`,
leaves the array contents untouched) and write the tombstone
`this.loaded[i] = undefined`.  The `exitProcess` trace records that exit
processing ran. -/
def doExitPre (j : Nat) (iOpt : Option Nat) (el : Nat) (st : OState) : OState :=
  match st.behaviors[j]? with
  | none => st
  | some be =>
    let idx : Option Nat :=
      match iOpt with
      | some i => some i
      | none => be.loaded.findIdx? (fun o => decide (o = some el))
    let loaded1 :=
      match idx with
      | some i => be.loaded.set i none
      | none => be.loaded
    { st with
      behaviors := st.behaviors.set j { be with loaded := loaded1 }
      exitProcess := st.exitProcess ++ [(be.id, el)] }

/-- Second half of `Behavior.prototype.doExit` (src/index.js lines 227-229):
`if (this.exit && this.exit.call(el, el[this.key]) !== false) delete
el[this.key]`.  The exit action, when present, is invoked with the element's
current tag; the tag is removed only when the action exists and does not
return the literal `false`. -/
def doExitPost (j el : Nat) (st : OState) : OState :=
  match st.behaviors[j]? with
  | none => st
  | some be =>
    if be.hasExit then
      let arg := getTag st.tags el be.key
      let st2 := { st with exitCalls := st.exitCalls ++ [(be.id, el, arg)] }
      if be.exitRet el arg then { st2 with tags := delTag st2.tags el be.key }
      else st2
    else st

/-- `Behavior.prototype.doExit` (src/index.js lines 224-230), written as one
function in source order: index resolution, tombstone write, then the
conditional exit-action call and tag removal. -/
def doExit (j : Nat) (iOpt : Option Nat) (el : Nat) (st : OState) : OState :=
  match st.behaviors[j]? with
  | none => st
  | some be =>
    let idx : Option Nat :=
      match iOpt with
      | some i => some i
      | none => be.loaded.findIdx? (fun o => decide (o = some el))
    let loaded1 :=
      match idx with
      | some i => be.loaded.set i none
      | none => be.loaded
    let st1 :=
      { st with
        behaviors := st.behaviors.set j { be with loaded := loaded1 }
        exitProcess := st.exitProcess ++ [(be.id, el)] }
    if be.hasExit then
      let arg := getTag st1.tags el be.key
      let st2 := { st1 with exitCalls := st1.exitCalls ++ [(be.id, el, arg)] }
      if be.exitRet el arg then { st2 with tags := delTag st2.tags el be.key }
      else st2
    else st1

/-- `Behavior.prototype.visitExit` (src/index.js lines 210-217): skip
tombstones; under `detectMutate` exit iff the element is absent from the
query result `list` (`has(list, el)` is an identity membership test),
otherwise exit iff `isAttached` fails. -/
def visitExit (d : Dom) (j : Nat) (elOpt : Option Nat) (i : Nat)
    (L : List Nat) (st : OState) : OState :=
  match elOpt with
  | none => st
  | some el =>
    match st.behaviors[j]? with
    | none => st
    | some be =>
      if be.detectMutate then
        if el ∈ L then st else doExit j (some i) el st
      else
        if isAttached d el then st else doExit j (some i) el st

/-- The poll closure installed by `Behavior.prototype.register`
(src/index.js lines 170-189): query the selector once, sweep the active list
(`each` captures the length up front; elements are read live at each
iteration), then sweep the query result with `visitEnter`. -/
def pollIdx (d : Dom) (j : Nat) (st : OState) : OState :=
  match st.behaviors[j]? with
  | none => st
  | some be =>
    let L := d.query be.selector
    let st1 := (List.range be.loaded.length).foldl
      (fun s i => visitExit d j (loadedAt s j i) i L s) st
    L.foldl (fun s el => visitEnter j el s) st1

/-- Indices of the behaviors registered under selector `s`, in registration
order: the model of the `selectors[s]` closure list built by `register`
(src/index.js lines 274-278). -/
def selIdxs (st : OState) (s : String) : List Nat :=
  (List.range st.behaviors.length).filter fun j =>
    match st.behaviors[j]? with
    | some be => decide (be.selector = s)
    | none => false

/-- `onmount.poll(selector)` (src/index.js lines 81-84) with a selector:
run the poll closures registered under exactly that selector string;
an unknown selector yields the empty list (`selectors[selector] || []`). -/
def pollSelector (d : Dom) (s : String) (st : OState) : OState :=
  (selIdxs st s).foldl (fun acc j => pollIdx d j acc) st

/-- `onmount.poll()` with no selector: run every installed poll closure
(`handlers`) in registration order. -/
def pollAll (d : Dom) (st : OState) : OState :=
  (List.range st.behaviors.length).foldl (fun acc j => pollIdx d j acc) st

/-- The inner loop of `onmount.teardown` (src/index.js lines 134-136) for
behavior `j`: `each(be.loaded, function (el, i) { if (el) be.doExit(el, i) })`
with the length captured up front and live element reads. -/
def teardownBe (j : Nat) (st : OState) : OState :=
  match st.behaviors[j]? with
  | none => st
  | some be =>
    (List.range be.loaded.length).foldl
      (fun s i =>
        match loadedAt s j i with
        | some el => doExit j (some i) el s
        | none => s) st

/-- `onmount.teardown` (src/index.js lines 132-138): for every behavior, exit
every non-tombstoned element of its active list.  Note the signature: no
`Dom` is consumed — teardown never consults attachment state or the query. -/
def teardown (st : OState) : OState :=
  (List.range st.behaviors.length).foldl (fun s j => teardownBe j s) st

/-- Registration, `onmount(sel, fn, [fn], [options])` (src/index.js lines
54-57 and 155-163): build the Behavior — `this.id = 'b' + bid++` reads the
old counter while `this.key = '__onmount:' + bid` reads the incremented
one — append it and install its poll closure. -/
def addBehavior (selector : String) (initRet : Nat → Bool) (hasExit : Bool)
    (exitRet : Nat → Option Token → Bool) (detectMutate : Bool)
    (st : OState) : OState :=
  let be : Behavior :=
    { id := st.bid, selector := selector, initRet := initRet,
      hasExit := hasExit, exitRet := exitRet,
      key := "__onmount:" ++ toString (st.bid + 1),
      detectMutate := detectMutate, loaded := [] }
  { st with bid := st.bid + 1, behaviors := st.behaviors ++ [be] }

/-- One MutationObserver record processed for behavior `j` (src/index.js
lines 98-105): `visitEnter` every added node matching the selector, then
`doExit` (with no index argument) every removed node matching it. -/
def visitMutation (d : Dom) (j : Nat) (m : Mutation) (st : OState) : OState :=
  let sel := fun (s : OState) =>
    match s.behaviors[j]? with
    | some be => be.selector
    | none => ""
  let st1 := m.addedNodes.foldl
    (fun s el => if d.elMatches el (sel s) then visitEnter j el s else s) st
  m.removedNodes.foldl
    (fun s el => if d.elMatches el (sel s) then doExit j none el s else s) st1

/-- The MutationObserver callback installed by `onmount.observe`
(src/index.js lines 96-108): for every behavior, process every mutation
record of the batch. -/
def onMutations (d : Dom) (muts : List Mutation) (st : OState) : OState :=
  (List.range st.behaviors.length).foldl
    (fun s j => muts.foldl (fun s2 m => visitMutation d j m s2) s) st

/-- A sequence of direct `visitEnter` calls `(behavior index, element)`, the
shape of any interleaving of enter processing across behaviors. -/
def runEnters (cmds : List (Nat × Nat)) (st : OState) : OState :=
  cmds.foldl (fun s c => visitEnter c.1 c.2 s) st

/-! ## Trace observations -/

/-- Number of enter-action invocations recorded for behavior id `b` on
element `n`. -/
def enterCount (st : OState) (b n : Nat) : Nat :=
  st.enterCalls.countP (fun c => decide (c.1 = b ∧ c.2.1 = n))

/-- Number of exit-processing runs recorded for behavior id `b` on element
`n`. -/
def exitCount (st : OState) (b n : Nat) : Nat :=
  st.exitProcess.countP (fun c => decide (c.1 = b ∧ c.2 = n))

/-- The active list of behavior `j` (empty when `j` is out of range). -/
def loadedOf (st : OState) (j : Nat) : List (Option Nat) :=
  match st.behaviors[j]? with
  | some be => be.loaded
  | none => []

/-- All enter-action invocations recorded for behavior id `b`. -/
def entersFor (st : OState) (b : Nat) : List (Nat × Nat × Token) :=
  st.enterCalls.filter (fun c => decide (c.1 = b))

/-- All exit-processing runs recorded for behavior id `b`. -/
def exitPFor (st : OState) (b : Nat) : List (Nat × Nat) :=
  st.exitProcess.filter (fun c => decide (c.1 = b))

/-- All exit-action invocations recorded for behavior id `b`. -/
def exitCFor (st : OState) (b : Nat) : List (Nat × Nat × Option Token) :=
  st.exitCalls.filter (fun c => decide (c.1 = b))

/-- `b'` agrees with `b` on every field except possibly the active list:
the engine mutates a behavior only through `loaded`. -/
def metaEq (b b' : Behavior) : Prop :=
  ∃ l, b' = { b with loaded := l }

/-- The behavior registry of `st'` is that of `st` with only active lists
changed: same length, and pointwise `metaEq`. -/
def MetaStable (bs bs' : List Behavior) : Prop :=
  bs'.length = bs.length ∧
    ∀ (k : Nat) (b : Behavior), bs[k]? = some b →
      ∃ b', bs'[k]? = some b' ∧ metaEq b b'

/-- Everything the engine can observe about a fixed element `n` is unchanged
between `st` and `st'`: its tags under every key, the enter/exit trace counts
that concern it, and its membership in every behavior's active list. -/
def NPreserve (n : Nat) (st st' : OState) : Prop :=
  (∀ k, getTag st'.tags n k = getTag st.tags n k) ∧
    (∀ b, enterCount st' b n = enterCount st b n) ∧
    (∀ b, exitCount st' b n = exitCount st b n) ∧
    (∀ j, (some n ∈ loadedOf st' j) ↔ some n ∈ loadedOf st j)

/-- Correlation-id bookkeeping invariant: every recorded enter invocation got
an id at most the current `cid` counter (nondecreasing along the trace), and
every attached token got an id strictly below `cid` (strictly increasing
along the attachment trace).  It holds for `OState.start` and is preserved by
every enter call. -/
def IdInv (st : OState) : Prop :=
  (∀ c ∈ st.enterCalls, c.2.2.id ≤ st.cid) ∧
    ((st.enterCalls.map (fun c => c.2.2.id)).Pairwise (· ≤ ·)) ∧
    (∀ t ∈ st.attachTrace, t.id < st.cid) ∧
    ((st.attachTrace.map Token.id).Pairwise (· < ·))

/-- Demonstration tree for concrete instantiations: root `0`, node `7`
attached under the root and matching selector `.a`. -/
def demoDom : Dom :=
  { docElement := 0
    parent := fun el => if el = 7 then some 0 else none
    depth := 2
    query := fun s => if s = ".a" then [7] else []
    elMatches := fun el s => decide (el = 7 ∧ s = ".a") }

/-! ## Tag lookup lemmas -/

theorem getTag_delTag (tags : List (Nat × String × Token)) (el : Nat)
    (key : String) (el' : Nat) (key' : String) :
    getTag (delTag tags el key) el' key' =
      if el' = el ∧ key' = key then none else getTag tags el' key' := by
  induction tags with
  | nil => simp [getTag, delTag]
  | cons t rest ih =>
    by_cases h1 : t.1 = el ∧ t.2.1 = key
    · simp only [delTag, if_pos h1, ih]
      by_cases hc : el' = el ∧ key' = key
      · simp [hc]
      · have h2 : ¬(t.1 = el' ∧ t.2.1 = key') := fun h2 =>
          hc ⟨h2.1.symm.trans h1.1, h2.2.symm.trans h1.2⟩
        rw [if_neg hc, if_neg hc, getTag, if_neg h2]
    · simp only [delTag, if_neg h1, getTag]
      by_cases h2 : t.1 = el' ∧ t.2.1 = key'
      · have hc : ¬(el' = el ∧ key' = key) := fun hc =>
          h1 ⟨h2.1.trans hc.1, h2.2.trans hc.2⟩
        rw [if_pos h2, if_neg hc, if_pos h2]
      · rw [if_neg h2, ih, if_neg h2]

theorem getTag_delTag_self (tags : List (Nat × String × Token)) (el : Nat)
    (key : String) : getTag (delTag tags el key) el key = none := by
  rw [getTag_delTag]; simp

theorem getTag_delTag_ne (tags : List (Nat × String × Token)) (el : Nat)
    (key : String) (el' : Nat) (key' : String)
    (h : ¬(el' = el ∧ key' = key)) :
    getTag (delTag tags el key) el' key' = getTag tags el' key' := by
  rw [getTag_delTag, if_neg h]

theorem getTag_setTag_self (tags : List (Nat × String × Token)) (el : Nat)
    (key : String) (tok : Token) :
    getTag (setTag tags el key tok) el key = some tok := by
  simp [setTag, getTag]

theorem getTag_setTag_ne (tags : List (Nat × String × Token)) (el : Nat)
    (key : String) (tok : Token) (el' : Nat) (key' : String)
    (h : ¬(el' = el ∧ key' = key)) :
    getTag (setTag tags el key tok) el' key' = getTag tags el' key' := by
  have h2 : ¬((el, key, tok).1 = el' ∧ (el, key, tok).2.1 = key') := fun h2 =>
    h ⟨h2.1.symm, h2.2.symm⟩
  rw [setTag, getTag, if_neg h2, getTag_delTag_ne _ _ _ _ _ h]

/-! ## Generic preservation lemmas -/

theorem metaEq_refl (b : Behavior) : metaEq b b := ⟨b.loaded, rfl⟩

theorem metaEq_trans {a b c : Behavior} (h1 : metaEq a b) (h2 : metaEq b c) :
    metaEq a c := by
  obtain ⟨l1, rfl⟩ := h1
  obtain ⟨l2, rfl⟩ := h2
  exact ⟨l2, rfl⟩

theorem metaStable_refl (bs : List Behavior) : MetaStable bs bs :=
  ⟨rfl, fun _ b h => ⟨b, h, metaEq_refl b⟩⟩

theorem metaStable_trans {a b c : List Behavior} (h1 : MetaStable a b)
    (h2 : MetaStable b c) : MetaStable a c := by
  refine ⟨h2.1.trans h1.1, fun k x hx => ?_⟩
  obtain ⟨y, hy, hxy⟩ := h1.2 k x hx
  obtain ⟨z, hz, hyz⟩ := h2.2 k y hy
  exact ⟨z, hz, metaEq_trans hxy hyz⟩

theorem lt_of_getElem?_some {α : Type} {l : List α} {i : Nat} {a : α}
    (h : l[i]? = some a) : i < l.length := by
  by_contra hc
  rw [List.getElem?_eq_none_iff.mpr (Nat.le_of_not_lt hc)] at h
  exact Option.noConfusion h

theorem metaStable_set (bs : List Behavior) (j : Nat) (be : Behavior)
    (l : List (Option Nat)) (hj : bs[j]? = some be) :
    MetaStable bs (bs.set j { be with loaded := l }) := by
  have hlen : j < bs.length := lt_of_getElem?_some hj
  refine ⟨List.length_set bs j _, fun k b hb => ?_⟩
  by_cases hk : k = j
  · subst hk
    rw [hj] at hb
    injection hb with hb
    subst hb
    exact ⟨_, List.getElem?_set_self hlen, ⟨l, rfl⟩⟩
  · exact ⟨b, by rw [List.getElem?_set_ne (fun h => hk h.symm)]; exact hb,
      metaEq_refl b⟩

theorem metaStable_none {bs bs' : List Behavior} (h : MetaStable bs bs')
    (k : Nat) (hk : bs[k]? = none) : bs'[k]? = none := by
  rw [List.getElem?_eq_none_iff] at hk ⊢
  rw [h.1]
  exact hk

theorem mem_set_of_ne {α : Type} {l : List α} {i : Nat} {a b : α}
    (ha : a ∈ l) (hne : l[i]? ≠ some a) : a ∈ l.set i b := by
  rw [List.mem_iff_getElem?] at ha
  obtain ⟨p, hp⟩ := ha
  have hpi : i ≠ p := fun h => hne (h ▸ hp)
  have : (l.set i b)[p]? = some a := by
    rw [List.getElem?_set_ne hpi]; exact hp
  exact List.getElem?_mem this

theorem not_mem_set_of_ne {α : Type} {l : List α} {i : Nat} {a b : α}
    (ha : a ∉ l) (hab : a ≠ b) : a ∉ l.set i b := fun hm =>
  (List.mem_or_eq_of_mem_set hm).elim ha hab

theorem nPreserve_refl (n : Nat) (st : OState) : NPreserve n st st :=
  ⟨fun _ => rfl, fun _ => rfl, fun _ => rfl, fun _ => Iff.rfl⟩

theorem nPreserve_trans {n : Nat} {s1 s2 s3 : OState}
    (h1 : NPreserve n s1 s2) (h2 : NPreserve n s2 s3) : NPreserve n s1 s3 :=
  ⟨fun k => (h2.1 k).trans (h1.1 k),
   fun b => (h2.2.1 b).trans (h1.2.1 b),
   fun b => (h2.2.2.1 b).trans (h1.2.2.1 b),
   fun j => (h2.2.2.2 j).trans (h1.2.2.2 j)⟩

/-! ## Per-operation preservation lemmas -/

theorem loadedOf_eq {st : OState} {j : Nat} {be : Behavior}
    (hbe : st.behaviors[j]? = some be) : loadedOf st j = be.loaded := by
  unfold loadedOf; rw [hbe]

theorem visitEnter_meta (j el : Nat) (st : OState) :
    MetaStable st.behaviors (visitEnter j el st).behaviors := by
  unfold visitEnter
  cases hbe : st.behaviors[j]? with
  | none => exact metaStable_refl _
  | some be =>
    dsimp only
    split
    · exact metaStable_refl _
    · split
      · exact metaStable_set _ j be _ hbe
      · exact metaStable_refl _

theorem doExit_meta (j : Nat) (iOpt : Option Nat) (el : Nat) (st : OState) :
    MetaStable st.behaviors (doExit j iOpt el st).behaviors := by
  unfold doExit
  cases hbe : st.behaviors[j]? with
  | none => exact metaStable_refl _
  | some be =>
    dsimp only
    split
    · split
      · exact metaStable_set _ j be _ hbe
      · exact metaStable_set _ j be _ hbe
    · exact metaStable_set _ j be _ hbe

theorem visitExit_meta (d : Dom) (j : Nat) (elOpt : Option Nat) (i : Nat)
    (L : List Nat) (st : OState) :
    MetaStable st.behaviors (visitExit d j elOpt i L st).behaviors := by
  unfold visitExit
  cases elOpt with
  | none => exact metaStable_refl _
  | some el =>
    cases hbe : st.behaviors[j]? with
    | none => exact metaStable_refl _
    | some be =>
      dsimp only
      split
      · split
        · exact metaStable_refl _
        · exact doExit_meta j (some i) el st
      · split
        · exact metaStable_refl _
        · exact doExit_meta j (some i) el st


theorem mem_append_singleton_ne {α : Type} {l : List α} {a b : α}
    (h : a ≠ b) : a ∈ l ++ [b] ↔ a ∈ l := by
  simp [List.mem_append, h]

theorem visitEnter_nPreserve (j el n : Nat) (st : OState) (h : el ≠ n) :
    NPreserve n st (visitEnter j el st) := by
  unfold visitEnter
  cases hbe : st.behaviors[j]? with
  | none => exact nPreserve_refl n st
  | some be =>
    dsimp only
    split
    · exact nPreserve_refl n st
    · split
      · refine ⟨fun k => ?_, fun b => ?_, fun b => rfl, fun j' => ?_⟩
        · exact getTag_setTag_ne _ _ _ _ _ _ (fun hc => h hc.1.symm)
        · simp [enterCount, List.countP_append, List.countP_cons, h]
        · by_cases hj' : j' = j
          · subst hj'
            have hlt : j' < st.behaviors.length := lt_of_getElem?_some hbe
            have h1 : loadedOf
                { st with
                  enterCalls := st.enterCalls ++ [(be.id, el, { id := st.cid, selector := be.selector })]
                  tags := setTag st.tags el be.key { id := st.cid, selector := be.selector }
                  behaviors := st.behaviors.set j' { be with loaded := be.loaded ++ [some el] }
                  attachTrace := st.attachTrace ++ [{ id := st.cid, selector := be.selector }]
                  cid := st.cid + 1 } j' = be.loaded ++ [some el] := by
              unfold loadedOf
              dsimp only
              rw [List.getElem?_set_self hlt]
            rw [h1, loadedOf_eq hbe]
            exact mem_append_singleton_ne (fun hc => h (Option.some.inj hc).symm)
          · unfold loadedOf
            dsimp only
            rw [List.getElem?_set_ne (fun hc => hj' hc.symm)]
      · refine ⟨fun k => rfl, fun b => ?_, fun b => rfl, fun j' => Iff.rfl⟩
        simp [enterCount, List.countP_append, List.countP_cons, h]


theorem loadedAt_eq (st : OState) (j i : Nat) :
    loadedAt st j i = (loadedOf st j).getD i none := by
  unfold loadedAt loadedOf
  cases st.behaviors[j]? with
  | none => simp
  | some be => rfl

theorem doExit_nPreserve (j i el n : Nat) (st : OState) (hn : el ≠ n)
    (hentry : (loadedOf st j)[i]? ≠ some (some n)) :
    NPreserve n st (doExit j (some i) el st) := by
  unfold doExit
  cases hbe : st.behaviors[j]? with
  | none => exact nPreserve_refl n st
  | some be =>
    dsimp only
    have hml : ∀ (s2 : OState),
        s2.behaviors = st.behaviors.set j { be with loaded := be.loaded.set i none } →
        ∀ j', (some n ∈ loadedOf s2 j') ↔ some n ∈ loadedOf st j' := by
      intro s2 hs2 j'
      unfold loadedOf
      rw [hs2]
      by_cases hj' : j' = j
      · subst hj'
        rw [List.getElem?_set_self (lt_of_getElem?_some hbe), hbe]
        dsimp only
        constructor
        · intro hm
          rcases List.mem_or_eq_of_mem_set hm with hm | hm
          · exact hm
          · exact Option.noConfusion hm
        · intro hm
          refine mem_set_of_ne hm ?_
          rw [loadedOf_eq hbe] at hentry
          exact hentry
      · rw [List.getElem?_set_ne (fun hc => hj' hc.symm)]
    split
    · split
      · refine ⟨fun k => ?_, fun b => rfl, fun b => ?_, hml _ rfl⟩
        · exact getTag_delTag_ne _ _ _ _ _ (fun hc => hn hc.1.symm)
        · simp [exitCount, List.countP_append, List.countP_cons, hn]
      · refine ⟨fun k => rfl, fun b => rfl, fun b => ?_, hml _ rfl⟩
        simp [exitCount, List.countP_append, List.countP_cons, hn]
    · refine ⟨fun k => rfl, fun b => rfl, fun b => ?_, hml _ rfl⟩
      simp [exitCount, List.countP_append, List.countP_cons, hn]

theorem visitExit_nPreserve (d : Dom) (j i n : Nat) (L : List Nat) (st : OState)
    (hsafe : loadedAt st j i = some n →
      ∀ be, st.behaviors[j]? = some be →
        (be.detectMutate = true → n ∈ L) ∧
        (be.detectMutate = false → isAttached d n = true)) :
    NPreserve n st (visitExit d j (loadedAt st j i) i L st) := by
  cases hel : loadedAt st j i with
  | none => exact nPreserve_refl n st
  | some el =>
    unfold visitExit
    cases hbe : st.behaviors[j]? with
    | none => exact nPreserve_refl n st
    | some be =>
      dsimp only
      by_cases heln : el = n
      · have hel2 : loadedAt st j i = some n := by rw [hel, heln]
        have hcond := hsafe hel2 be hbe
        split
        · split
          · exact nPreserve_refl n st
          · rename_i hdm hmem
            exact absurd (show el ∈ L by rw [heln]; exact hcond.1 hdm) hmem
        · split
          · exact nPreserve_refl n st
          · rename_i hdm hatt
            refine absurd (show isAttached d el = true by
              rw [heln]; exact hcond.2 (by simpa using hdm)) hatt
      · have hent : (loadedOf st j)[i]? ≠ some (some n) := by
          intro hc
          have : loadedAt st j i = some n := by
            rw [loadedAt_eq, List.getD_eq_getElem?_getD, hc]
            rfl
          rw [this] at hel
          exact heln (Option.some.inj hel).symm
        split
        · split
          · exact nPreserve_refl n st
          · exact doExit_nPreserve j i el n st heln hent
        · split
          · exact nPreserve_refl n st
          · exact doExit_nPreserve j i el n st heln hent

/-! ## Poll-pass sweep lemmas -/

theorem foldl_pres {α : Type} (P : OState → Prop) (f : OState → α → OState)
    (l : List α) (st : OState) (h : P st)
    (hf : ∀ s a, P s → P (f s a)) : P (l.foldl f st) := by
  induction l generalizing st with
  | nil => exact h
  | cons a l ih => exact ih (f st a) (hf st a h)

/-- The exit sweep of one poll pass preserves every observation about an
element `n` that either is not in the active list or satisfies the
no-exit condition of its behavior. -/
theorem exitPhase_nPreserve (d : Dom) (j n : Nat) (L : List Nat)
    (idxs : List Nat) (st : OState)
    (hsafe : ∀ be, st.behaviors[j]? = some be → some n ∈ be.loaded →
      (be.detectMutate = true → n ∈ L) ∧
      (be.detectMutate = false → isAttached d n = true)) :
    NPreserve n st
        (idxs.foldl (fun s i => visitExit d j (loadedAt s j i) i L s) st) ∧
      MetaStable st.behaviors
        (idxs.foldl (fun s i => visitExit d j (loadedAt s j i) i L s) st).behaviors := by
  refine foldl_pres
    (fun s => NPreserve n st s ∧ MetaStable st.behaviors s.behaviors) _ idxs st
    ⟨nPreserve_refl n st, metaStable_refl _⟩ ?_
  rintro s i ⟨hns, hms⟩
  refine ⟨nPreserve_trans hns ?_, metaStable_trans hms (visitExit_meta d j _ i L s)⟩
  refine visitExit_nPreserve d j i n L s ?_
  intro hat be' hbe'
  cases hbe : st.behaviors[j]? with
  | none =>
    rw [metaStable_none hms j hbe] at hbe'
    exact Option.noConfusion hbe'
  | some be =>
    obtain ⟨b', hb', l1, hbl⟩ := hms.2 j be hbe
    rw [hbe'] at hb'
    injection hb' with hb'
    subst hb'
    subst hbl
    have hmem : some n ∈ be.loaded := by
      have h1 : some n ∈ loadedOf s j := by
        rw [loadedAt_eq] at hat
        rw [List.getD_eq_getElem?_getD] at hat
        cases hq : (loadedOf s j)[i]? with
        | none => rw [hq] at hat; exact Option.noConfusion hat
        | some o =>
          rw [hq] at hat
          have : o = some n := hat
          exact List.getElem?_mem (this ▸ hq)
      rw [(hns.2.2.2 j)] at h1
      rw [loadedOf_eq hbe] at h1
      exact h1
    exact hsafe be hbe hmem


theorem visitEnter_skip (j n : Nat) (st : OState) (be : Behavior)
    (hbe : st.behaviors[j]? = some be)
    (htag : (getTag st.tags n be.key).isSome) :
    visitEnter j n st = st := by
  unfold visitEnter
  rw [hbe]
  dsimp only
  rw [if_pos htag]

theorem visitEnter_enter (j n : Nat) (st : OState) (be : Behavior)
    (hbe : st.behaviors[j]? = some be)
    (htag : getTag st.tags n be.key = none)
    (hinit : be.initRet n = true) :
    visitEnter j n st =
      { st with
        cid := st.cid + 1
        behaviors := st.behaviors.set j { be with loaded := be.loaded ++ [some n] }
        tags := setTag st.tags n be.key { id := st.cid, selector := be.selector }
        enterCalls := st.enterCalls ++
          [(be.id, n, { id := st.cid, selector := be.selector })]
        attachTrace := st.attachTrace ++
          [{ id := st.cid, selector := be.selector }] } := by
  unfold visitEnter
  rw [hbe]
  dsimp only
  rw [htag]
  dsimp only [Option.isSome_none]
  rw [if_neg (by simp), if_pos hinit]

theorem visitEnter_veto (j n : Nat) (st : OState) (be : Behavior)
    (hbe : st.behaviors[j]? = some be)
    (htag : getTag st.tags n be.key = none)
    (hinit : be.initRet n = false) :
    visitEnter j n st =
      { st with
        enterCalls := st.enterCalls ++
          [(be.id, n, { id := st.cid, selector := be.selector })] } := by
  unfold visitEnter
  rw [hbe]
  dsimp only
  rw [htag]
  dsimp only [Option.isSome_none]
  rw [if_neg (by simp), if_neg (by simp [hinit])]


/-- During an enter sweep, an element that already carries the behavior's
state tag is never re-entered and nothing about it changes. -/
theorem enterPhase_tagged (j n : Nat) (E : List Nat) (st : OState)
    (htag : ∀ be, st.behaviors[j]? = some be →
      (getTag st.tags n be.key).isSome) :
    NPreserve n st (E.foldl (fun s el => visitEnter j el s) st) ∧
      MetaStable st.behaviors
        (E.foldl (fun s el => visitEnter j el s) st).behaviors := by
  refine foldl_pres
    (fun s => NPreserve n st s ∧ MetaStable st.behaviors s.behaviors) _ E st
    ⟨nPreserve_refl n st, metaStable_refl _⟩ ?_
  rintro s el ⟨hns, hms⟩
  by_cases heln : el = n
  · subst heln
    cases hbe : s.behaviors[j]? with
    | none =>
      have : visitEnter j el s = s := by unfold visitEnter; rw [hbe]
      rw [this]
      exact ⟨hns, hms⟩
    | some be' =>
      cases hbe0 : st.behaviors[j]? with
      | none =>
        rw [metaStable_none hms j hbe0] at hbe
        exact Option.noConfusion hbe
      | some be =>
        obtain ⟨b', hb', l1, hbl⟩ := hms.2 j be hbe0
        rw [hbe] at hb'
        injection hb' with hb'
        subst hb'
        subst hbl
        have hsome : (getTag s.tags el { be with loaded := l1 }.key).isSome := by
          dsimp only
          rw [hns.1 be.key]
          exact htag be hbe0
        rw [visitEnter_skip j el s _ hbe hsome]
        exact ⟨hns, hms⟩
  · exact ⟨nPreserve_trans hns (visitEnter_nPreserve j el n s heln),
      metaStable_trans hms (visitEnter_meta j el s)⟩


/-- Enter sweep containing `n`, where `n` is untagged and its enter action
accepts: the enter action fires exactly once for `n`, after which `n` is
tagged and in the active list. -/
theorem enterPhase_enters (j n : Nat) (E : List Nat) (st : OState)
    (be : Behavior) (hbe : st.behaviors[j]? = some be) (hmem : n ∈ E)
    (htag : getTag st.tags n be.key = none) (hinit : be.initRet n = true) :
    (∀ b, enterCount (E.foldl (fun s el => visitEnter j el s) st) b n =
        enterCount st b n + (if be.id = b then 1 else 0)) ∧
      (getTag (E.foldl (fun s el => visitEnter j el s) st).tags n be.key).isSome ∧
      (some n ∈ loadedOf (E.foldl (fun s el => visitEnter j el s) st) j) ∧
      (∀ b, exitCount (E.foldl (fun s el => visitEnter j el s) st) b n =
        exitCount st b n) ∧
      MetaStable st.behaviors
        (E.foldl (fun s el => visitEnter j el s) st).behaviors := by
  induction E generalizing st be with
  | nil => cases hmem
  | cons e E ih =>
    rw [List.foldl_cons]
    by_cases hen : e = n
    · subst hen
      rw [visitEnter_enter j e st be hbe htag hinit]
      set s1 : OState := { st with
        cid := st.cid + 1
        behaviors := st.behaviors.set j { be with loaded := be.loaded ++ [some e] }
        tags := setTag st.tags e be.key { id := st.cid, selector := be.selector }
        enterCalls := st.enterCalls ++
          [(be.id, e, { id := st.cid, selector := be.selector })]
        attachTrace := st.attachTrace ++
          [{ id := st.cid, selector := be.selector }] } with hs1
      have hbe1 : s1.behaviors[j]? = some { be with loaded := be.loaded ++ [some e] } := by
        rw [hs1]
        dsimp only
        exact List.getElem?_set_self (lt_of_getElem?_some hbe)
      have htag1 : ∀ be', s1.behaviors[j]? = some be' →
          (getTag s1.tags e be'.key).isSome := by
        intro be' hbe'
        rw [hbe1] at hbe'
        injection hbe' with hbe'
        subst hbe'
        rw [hs1]
        dsimp only
        rw [getTag_setTag_self]
        rfl
      obtain ⟨hns, hms⟩ := enterPhase_tagged j e E s1 htag1
      refine ⟨?_, ?_, ?_, ?_, ?_⟩
      · intro b
        rw [hns.2.1 b, hs1]
        simp [enterCount, List.countP_append, List.countP_cons]
      · rw [hns.1 be.key, hs1]
        dsimp only
        rw [getTag_setTag_self]
        rfl
      · rw [hns.2.2.2 j, loadedOf_eq hbe1]
        exact List.mem_append_right _ (List.mem_singleton.mpr rfl)
      · intro b
        rw [hns.2.2.1 b, hs1]
        rfl
      · rw [hs1] at hms
        dsimp only at hms
        exact metaStable_trans (metaStable_set _ j be _ hbe) hms
    · have hns1 := visitEnter_nPreserve j e n st hen
      have hms1 := visitEnter_meta j e st
      obtain ⟨b1, hb1, l1, hbl⟩ := hms1.2 j be hbe
      subst hbl
      have htag1 : getTag (visitEnter j e st).tags n
          ({ be with loaded := l1 } : Behavior).key = none := by
        dsimp only
        rw [hns1.1 be.key]
        exact htag
      have hmem1 : n ∈ E := by
        rcases List.mem_cons.mp hmem with h | h
        · exact absurd h.symm hen
        · exact h
      obtain ⟨hc1, hc2, hc3, hc4, hc5⟩ :=
        ih (visitEnter j e st) { be with loaded := l1 } hb1 hmem1 htag1 hinit
      refine ⟨?_, hc2, hc3, ?_, metaStable_trans hms1 hc5⟩
      · intro b
        rw [hc1 b]
        dsimp only
        rw [hns1.2.1 b]
      · intro b
        rw [hc4 b, hns1.2.2.1 b]


/-- Enter sweep over elements where `n` is untagged but its enter action
returns `false`: `n` stays untagged and out of the active list, and the
enter-call trace only grows. -/
theorem enterPhase_vetoFold (j n : Nat) (E : List Nat) (st : OState)
    (be : Behavior) (hbe : st.behaviors[j]? = some be)
    (htag : getTag st.tags n be.key = none) (hinit : be.initRet n = false)
    (hnl : some n ∉ loadedOf st j) :
    (∀ b, enterCount st b n ≤
        enterCount (E.foldl (fun s el => visitEnter j el s) st) b n) ∧
      getTag (E.foldl (fun s el => visitEnter j el s) st).tags n be.key = none ∧
      (some n ∉ loadedOf (E.foldl (fun s el => visitEnter j el s) st) j) ∧
      (∀ b, exitCount (E.foldl (fun s el => visitEnter j el s) st) b n =
        exitCount st b n) ∧
      MetaStable st.behaviors
        (E.foldl (fun s el => visitEnter j el s) st).behaviors := by
  refine foldl_pres (fun s =>
    (∀ b, enterCount st b n ≤ enterCount s b n) ∧
      getTag s.tags n be.key = none ∧
      (some n ∉ loadedOf s j) ∧
      (∀ b, exitCount s b n = exitCount st b n) ∧
      MetaStable st.behaviors s.behaviors) _ E st
    ⟨fun b => Nat.le_refl _, htag, hnl, fun b => rfl, metaStable_refl _⟩ ?_
  rintro s el ⟨hcnt, htg, hnm, hxc, hms⟩
  by_cases heln : el = n
  · subst heln
    obtain ⟨b1, hb1, l1, hbl⟩ := hms.2 j be hbe
    subst hbl
    rw [visitEnter_veto j el s _ hb1 htg hinit]
    refine ⟨?_, htg, hnm, hxc, hms⟩
    intro b
    refine (hcnt b).trans ?_
    simp only [enterCount]
    exact List.Sublist.countP_le _ (List.sublist_append_left _ _)
  · have hns1 := visitEnter_nPreserve j el n s heln
    refine ⟨fun b => (hcnt b).trans (Nat.le_of_eq (hns1.2.1 b).symm),
      by rw [hns1.1 be.key]; exact htg,
      fun hm => hnm ((hns1.2.2.2 j).mp hm),
      fun b => (hns1.2.2.1 b).trans (hxc b),
      metaStable_trans hms (visitEnter_meta j el s)⟩

/-- Enter sweep reaching `n` with a vetoing enter action: the action is
invoked again (trace strictly grows) yet `n` stays untagged and untracked. -/
theorem enterPhase_veto (j n : Nat) (E : List Nat) (st : OState)
    (be : Behavior) (hbe : st.behaviors[j]? = some be) (hmem : n ∈ E)
    (htag : getTag st.tags n be.key = none) (hinit : be.initRet n = false)
    (hnl : some n ∉ loadedOf st j) :
    (enterCount st be.id n <
        enterCount (E.foldl (fun s el => visitEnter j el s) st) be.id n) ∧
      getTag (E.foldl (fun s el => visitEnter j el s) st).tags n be.key = none ∧
      (some n ∉ loadedOf (E.foldl (fun s el => visitEnter j el s) st) j) ∧
      (∀ b, exitCount (E.foldl (fun s el => visitEnter j el s) st) b n =
        exitCount st b n) ∧
      MetaStable st.behaviors
        (E.foldl (fun s el => visitEnter j el s) st).behaviors := by
  induction E generalizing st be with
  | nil => cases hmem
  | cons e E ih =>
    rw [List.foldl_cons]
    by_cases hen : e = n
    · subst hen
      rw [visitEnter_veto j e st be hbe htag hinit]
      set s1 : OState := { st with
        enterCalls := st.enterCalls ++
          [(be.id, e, { id := st.cid, selector := be.selector })] } with hs1
      have hbe1 : s1.behaviors[j]? = some be := by rw [hs1]; exact hbe
      have htag1 : getTag s1.tags e be.key = none := by rw [hs1]; exact htag
      have hnl1 : some e ∉ loadedOf s1 j := by
        intro hm
        refine hnl ?_
        rw [hs1] at hm
        unfold loadedOf at hm ⊢
        exact hm
      obtain ⟨hcnt, htg, hnm, hxc, hms⟩ :=
        enterPhase_vetoFold j e E s1 be hbe1 htag1 hinit hnl1
      refine ⟨?_, htg, hnm, ?_, ?_⟩
      · refine Nat.lt_of_lt_of_le ?_ (hcnt be.id)
        rw [hs1]
        simp [enterCount, List.countP_append, List.countP_cons]
      · intro b
        rw [hxc b, hs1]
        rfl
      · have : MetaStable st.behaviors s1.behaviors := by
          rw [hs1]; exact metaStable_refl _
        exact metaStable_trans this hms
    · have hns1 := visitEnter_nPreserve j e n st hen
      have hms1 := visitEnter_meta j e st
      obtain ⟨b1, hb1, l1, hbl⟩ := hms1.2 j be hbe
      subst hbl
      have htag1 : getTag (visitEnter j e st).tags n
          ({ be with loaded := l1 } : Behavior).key = none := by
        dsimp only
        rw [hns1.1 be.key]
        exact htag
      have hmem1 : n ∈ E := by
        rcases List.mem_cons.mp hmem with h | h
        · exact absurd h.symm hen
        · exact h
      have hnl1 : some n ∉ loadedOf (visitEnter j e st) j := fun hm =>
        hnl ((hns1.2.2.2 j).mp hm)
      obtain ⟨hc1, hc2, hc3, hc4, hc5⟩ :=
        ih (visitEnter j e st) { be with loaded := l1 } hb1 hmem1 htag1 hinit hnl1
      refine ⟨?_, hc2, hc3, ?_, metaStable_trans hms1 hc5⟩
      · have := hc1
        dsimp only at this
        rw [hns1.2.1 be.id] at this
        exact this
      · intro b
        rw [hc4 b, hns1.2.2.1 b]

/-! ## Poll-level lemmas and claims C2, C7 -/

theorem pollIdx_eq (d : Dom) (j : Nat) (st : OState) (be : Behavior)
    (hbe : st.behaviors[j]? = some be) :
    pollIdx d j st =
      (d.query be.selector).foldl (fun s el => visitEnter j el s)
        ((List.range be.loaded.length).foldl
          (fun s i => visitExit d j (loadedAt s j i) i (d.query be.selector) s)
          st) := by
  unfold pollIdx
  rw [hbe]

/-- One poll of an untagged, untracked, accepted, attached, matching node
`n`: the enter action fires exactly once, `n` ends up tagged and tracked,
and no exit processing of `n` happens. -/
theorem pollIdx_enters (d : Dom) (j n : Nat) (st : OState) (be : Behavior)
    (hbe : st.behaviors[j]? = some be)
    (hq : n ∈ d.query be.selector)
    (htag : getTag st.tags n be.key = none)
    (hnl : some n ∉ be.loaded)
    (hinit : be.initRet n = true) :
    (∀ b, enterCount (pollIdx d j st) b n =
        enterCount st b n + (if be.id = b then 1 else 0)) ∧
      (getTag (pollIdx d j st).tags n be.key).isSome ∧
      (some n ∈ loadedOf (pollIdx d j st) j) ∧
      (∀ b, exitCount (pollIdx d j st) b n = exitCount st b n) ∧
      MetaStable st.behaviors (pollIdx d j st).behaviors := by
  rw [pollIdx_eq d j st be hbe]
  have hsafe : ∀ be', st.behaviors[j]? = some be' → some n ∈ be'.loaded →
      (be'.detectMutate = true → n ∈ d.query be.selector) ∧
      (be'.detectMutate = false → isAttached d n = true) := by
    intro be' hbe' hm
    rw [hbe] at hbe'
    injection hbe' with hbe'
    subst hbe'
    exact absurd hm hnl
  obtain ⟨hnpA, hmsA⟩ := exitPhase_nPreserve d j n (d.query be.selector)
    (List.range be.loaded.length) st hsafe
  obtain ⟨beA, hbeA, lA, hblA⟩ := hmsA.2 j be hbe
  subst hblA
  have htagA : getTag ((List.range be.loaded.length).foldl
      (fun s i => visitExit d j (loadedAt s j i) i (d.query be.selector) s)
      st).tags n ({ be with loaded := lA } : Behavior).key = none := by
    dsimp only
    rw [hnpA.1 be.key]
    exact htag
  obtain ⟨hc1, hc2, hc3, hc4, hc5⟩ := enterPhase_enters j n (d.query be.selector)
    _ { be with loaded := lA } hbeA hq htagA hinit
  refine ⟨?_, hc2, hc3, ?_, metaStable_trans hmsA hc5⟩
  · intro b
    rw [hc1 b]
    dsimp only
    rw [hnpA.2.1 b]
  · intro b
    rw [hc4 b, hnpA.2.2.1 b]


/-- One poll of a node already tagged for the behavior, still matching
(under `detectMutate`) or still attached (otherwise): nothing about the node
changes — no re-enter, no exit. -/
theorem pollIdx_tagged (d : Dom) (j n : Nat) (st : OState) (be : Behavior)
    (hbe : st.behaviors[j]? = some be)
    (htag : (getTag st.tags n be.key).isSome)
    (hq : be.detectMutate = true → n ∈ d.query be.selector)
    (hatt : be.detectMutate = false → isAttached d n = true) :
    NPreserve n st (pollIdx d j st) ∧
      MetaStable st.behaviors (pollIdx d j st).behaviors := by
  rw [pollIdx_eq d j st be hbe]
  have hsafe : ∀ be', st.behaviors[j]? = some be' → some n ∈ be'.loaded →
      (be'.detectMutate = true → n ∈ d.query be.selector) ∧
      (be'.detectMutate = false → isAttached d n = true) := by
    intro be' hbe' _
    rw [hbe] at hbe'
    injection hbe' with hbe'
    subst hbe'
    exact ⟨hq, hatt⟩
  obtain ⟨hnpA, hmsA⟩ := exitPhase_nPreserve d j n (d.query be.selector)
    (List.range be.loaded.length) st hsafe
  have htagB : ∀ be', ((List.range be.loaded.length).foldl
      (fun s i => visitExit d j (loadedAt s j i) i (d.query be.selector) s)
      st).behaviors[j]? = some be' →
      (getTag ((List.range be.loaded.length).foldl
        (fun s i => visitExit d j (loadedAt s j i) i (d.query be.selector) s)
        st).tags n be'.key).isSome := by
    intro be' hbe'
    obtain ⟨beA, hbeA, lA, hblA⟩ := hmsA.2 j be hbe
    rw [hbe'] at hbeA
    injection hbeA with hbeA
    subst hbeA
    subst hblA
    dsimp only
    rw [hnpA.1 be.key]
    exact htag
  obtain ⟨hnpB, hmsB⟩ := enterPhase_tagged j n (d.query be.selector) _ htagB
  exact ⟨nPreserve_trans hnpA hnpB, metaStable_trans hmsA hmsB⟩

/-- One poll of an untagged, untracked, matching node whose enter action
vetoes: the enter action is invoked (strict trace growth) but the node stays
untagged and untracked, and no exit processing of it happens. -/
theorem pollIdx_veto (d : Dom) (j n : Nat) (st : OState) (be : Behavior)
    (hbe : st.behaviors[j]? = some be)
    (hq : n ∈ d.query be.selector)
    (htag : getTag st.tags n be.key = none)
    (hnl : some n ∉ be.loaded)
    (hinit : be.initRet n = false) :
    getTag (pollIdx d j st).tags n be.key = none ∧
      (some n ∉ loadedOf (pollIdx d j st) j) ∧
      enterCount st be.id n < enterCount (pollIdx d j st) be.id n ∧
      (∀ b, exitCount (pollIdx d j st) b n = exitCount st b n) ∧
      MetaStable st.behaviors (pollIdx d j st).behaviors := by
  rw [pollIdx_eq d j st be hbe]
  have hsafe : ∀ be', st.behaviors[j]? = some be' → some n ∈ be'.loaded →
      (be'.detectMutate = true → n ∈ d.query be.selector) ∧
      (be'.detectMutate = false → isAttached d n = true) := by
    intro be' hbe' hm
    rw [hbe] at hbe'
    injection hbe' with hbe'
    subst hbe'
    exact absurd hm hnl
  obtain ⟨hnpA, hmsA⟩ := exitPhase_nPreserve d j n (d.query be.selector)
    (List.range be.loaded.length) st hsafe
  obtain ⟨beA, hbeA, lA, hblA⟩ := hmsA.2 j be hbe
  subst hblA
  have htagA : getTag ((List.range be.loaded.length).foldl
      (fun s i => visitExit d j (loadedAt s j i) i (d.query be.selector) s)
      st).tags n ({ be with loaded := lA } : Behavior).key = none := by
    dsimp only
    rw [hnpA.1 be.key]
    exact htag
  have hnlA : some n ∉ loadedOf ((List.range be.loaded.length).foldl
      (fun s i => visitExit d j (loadedAt s j i) i (d.query be.selector) s)
      st) j := by
    intro hm
    have := (hnpA.2.2.2 j).mp hm
    rw [loadedOf_eq hbe] at this
    exact hnl this
  obtain ⟨hc1, hc2, hc3, hc4, hc5⟩ := enterPhase_veto j n (d.query be.selector)
    _ { be with loaded := lA } hbeA hq htagA hinit hnlA
  refine ⟨hc2, hc3, ?_, ?_, metaStable_trans hmsA hc5⟩
  · have := hc1
    dsimp only at this
    rw [hnpA.2.1 be.id] at this
    exact this
  · intro b
    rw [hc4 b, hnpA.2.2.1 b]


/-- C2: for every node `n` matching a behavior's selector whose enter action
does not return false, polling twice with no tree changes invokes the enter
action exactly once for `n`; the second poll neither re-enters nor exits
`n`. -/
theorem claim_C2 (d : Dom) (st : OState) (j n : Nat) (be : Behavior)
    (hbe : st.behaviors[j]? = some be)
    (hq : n ∈ d.query be.selector)
    (htag : getTag st.tags n be.key = none)
    (hnl : some n ∉ be.loaded)
    (hinit : be.initRet n = true)
    (hatt : isAttached d n = true) :
    enterCount (pollIdx d j st) be.id n = enterCount st be.id n + 1 ∧
      enterCount (pollIdx d j (pollIdx d j st)) be.id n =
        enterCount (pollIdx d j st) be.id n ∧
      (getTag (pollIdx d j (pollIdx d j st)).tags n be.key).isSome ∧
      (some n ∈ loadedOf (pollIdx d j (pollIdx d j st)) j) ∧
      (∀ b, exitCount (pollIdx d j (pollIdx d j st)) b n = exitCount st b n) := by
  obtain ⟨h1, h2, h3, h4, h5⟩ := pollIdx_enters d j n st be hbe hq htag hnl hinit
  obtain ⟨be1, hbe1, l1, hbl1⟩ := h5.2 j be hbe
  subst hbl1
  obtain ⟨hnp2, hms2⟩ := pollIdx_tagged d j n (pollIdx d j st)
    { be with loaded := l1 } hbe1 h2 (fun _ => hq) (fun _ => hatt)
  refine ⟨?_, ?_, ?_, ?_, ?_⟩
  · rw [h1 be.id]
    simp
  · exact hnp2.2.1 be.id
  · rw [hnp2.1 be.key]
    exact h2
  · rw [hnp2.2.2.2 j]
    exact h3
  · intro b
    rw [hnp2.2.2.1 b, h4 b]

/-- C7: a node whose enter action returns false is neither tagged nor added
to the active list, and each further poll in which it still matches invokes
the enter action for it again. -/
theorem claim_C7 (d : Dom) (st : OState) (j n : Nat) (be : Behavior)
    (hbe : st.behaviors[j]? = some be)
    (hq : n ∈ d.query be.selector)
    (htag : getTag st.tags n be.key = none)
    (hnl : some n ∉ be.loaded)
    (hinit : be.initRet n = false) :
    getTag (pollIdx d j st).tags n be.key = none ∧
      (some n ∉ loadedOf (pollIdx d j st) j) ∧
      enterCount st be.id n < enterCount (pollIdx d j st) be.id n ∧
      enterCount (pollIdx d j st) be.id n <
        enterCount (pollIdx d j (pollIdx d j st)) be.id n := by
  obtain ⟨h1, h2, h3, h4, h5⟩ := pollIdx_veto d j n st be hbe hq htag hnl hinit
  obtain ⟨be1, hbe1, l1, hbl1⟩ := h5.2 j be hbe
  subst hbl1
  have hnl1 : some n ∉ ({ be with loaded := l1 } : Behavior).loaded := by
    rw [← loadedOf_eq hbe1]
    exact h2
  obtain ⟨g1, g2, g3, g4, g5⟩ := pollIdx_veto d j n (pollIdx d j st)
    { be with loaded := l1 } hbe1 hq h1 hnl1 hinit
  exact ⟨h1, h2, h3, g3⟩


theorem claim_C2_witness :
    (7 ∈ demoDom.query ".a") ∧
      enterCount (pollIdx demoDom 0 (addBehavior ".a" (fun _ => true) false
          (fun _ _ => true) false OState.start)) 0 7 =
        enterCount (addBehavior ".a" (fun _ => true) false (fun _ _ => true)
          false OState.start) 0 7 + 1 := by
  refine ⟨by decide, ?_⟩
  exact (claim_C2 demoDom (addBehavior ".a" (fun _ => true) false
    (fun _ _ => true) false OState.start) 0 7
    { id := 0, selector := ".a", initRet := (fun _ => true), hasExit := false,
      exitRet := (fun _ _ => true), key := "__onmount:1", detectMutate := false,
      loaded := [] } rfl (by decide) rfl (by decide) rfl (by decide)).1

theorem claim_C7_witness :
    (7 ∈ demoDom.query ".a") ∧
      enterCount (addBehavior ".a" (fun _ => false) false (fun _ _ => true)
          false OState.start) 0 7 <
        enterCount (pollIdx demoDom 0 (addBehavior ".a" (fun _ => false) false
          (fun _ _ => true) false OState.start)) 0 7 := by
  refine ⟨by decide, ?_⟩
  exact (claim_C7 demoDom (addBehavior ".a" (fun _ => false) false
    (fun _ _ => true) false OState.start) 0 7
    { id := 0, selector := ".a", initRet := (fun _ => false), hasExit := false,
      exitRet := (fun _ _ => true), key := "__onmount:1", detectMutate := false,
      loaded := [] } rfl (by decide) rfl (by decide) rfl).2.2.1


/-! ## Exit processing: claims C3, C4, C10 -/

theorem doExit_exitProcess (j : Nat) (iOpt : Option Nat) (el : Nat)
    (st : OState) (be : Behavior) (hbe : st.behaviors[j]? = some be) :
    (doExit j iOpt el st).exitProcess = st.exitProcess ++ [(be.id, el)] := by
  unfold doExit
  rw [hbe]
  dsimp only
  split
  · split
    · rfl
    · rfl
  · rfl

theorem doExit_untagged_exitCalls (j : Nat) (iOpt : Option Nat) (el : Nat)
    (st : OState) (be : Behavior) (hbe : st.behaviors[j]? = some be)
    (htag : getTag st.tags el be.key = none) (hx : be.hasExit = true) :
    (doExit j iOpt el st).exitCalls = st.exitCalls ++ [(be.id, el, none)] := by
  unfold doExit
  rw [hbe]
  dsimp only
  rw [hx, if_pos rfl, htag]
  split
  · rfl
  · rfl

/-- C3: exit processing factors into a tombstoning phase followed by the
exit-action phase; at the moment the exit action runs, slot `i` already
holds the tombstone, so the node is no longer a live member of the list. -/
theorem claim_C3 (st : OState) (j i el : Nat) (be : Behavior)
    (hbe : st.behaviors[j]? = some be) (hi : i < be.loaded.length) :
    (∀ iOpt, doExit j iOpt el st = doExitPost j el (doExitPre j iOpt el st)) ∧
      (doExitPre j (some i) el st).behaviors[j]? =
        some { be with loaded := be.loaded.set i none } ∧
      (be.loaded.set i none)[i]? = some none ∧
      ((∀ p, be.loaded[p]? = some (some el) → p = i) →
        some el ∉ be.loaded.set i none) := by
  have hlt : j < st.behaviors.length := lt_of_getElem?_some hbe
  refine ⟨?_, ?_, ?_, ?_⟩
  · intro iOpt
    unfold doExit doExitPre doExitPost
    rw [hbe]
    dsimp only
    rw [List.getElem?_set_self hlt]
  · unfold doExitPre
    rw [hbe]
    dsimp only
    rw [List.getElem?_set_self hlt]
  · exact List.getElem?_set_self (by simpa using hi)
  · intro huniq hm
    rw [List.mem_iff_getElem?] at hm
    obtain ⟨p, hp⟩ := hm
    by_cases hpi : p = i
    · subst hpi
      rw [List.getElem?_set_self (by simpa using hi)] at hp
      exact Option.noConfusion (Option.some.inj hp)
    · rw [List.getElem?_set_ne (fun hc => hpi hc.symm)] at hp
      exact hpi (huniq p hp)



/-- C4: during a poll's exit sweep, a live node is exited iff it is absent
from the fresh query result when `detectMutate` is set, and iff it is no
longer attached to the root otherwise. -/
theorem claim_C4 (d : Dom) (st : OState) (j i el : Nat) (L : List Nat)
    (be : Behavior) (hbe : st.behaviors[j]? = some be) :
    (be.detectMutate = true →
      (visitExit d j (some el) i L st).exitProcess =
        st.exitProcess ++ (if el ∈ L then [] else [(be.id, el)])) ∧
      (be.detectMutate = false →
        (visitExit d j (some el) i L st).exitProcess =
          st.exitProcess ++ (if isAttached d el then [] else [(be.id, el)])) := by
  constructor
  · intro hdm
    unfold visitExit
    rw [hbe]
    dsimp only
    rw [hdm, if_pos rfl]
    by_cases hm : el ∈ L
    · rw [if_pos hm, if_pos hm, List.append_nil]
    · rw [if_neg hm, if_neg hm, doExit_exitProcess j (some i) el st be hbe]
  · intro hdm
    unfold visitExit
    rw [hbe]
    dsimp only
    rw [hdm, if_neg (by simp)]
    by_cases ha : isAttached d el = true
    · rw [if_pos ha, if_pos ha, List.append_nil]
    · rw [if_neg ha, if_neg ha, doExit_exitProcess j (some i) el st be hbe]

/-- C10: a removed-node report for a matching node runs exit processing and
invokes the exit action even when the node carries no state tag; the exit
action then receives an undefined (`none`) state argument. -/
theorem claim_C10 (d : Dom) (st : OState) (j el : Nat) (be : Behavior)
    (hbe : st.behaviors[j]? = some be)
    (hmatch : d.elMatches el be.selector = true)
    (htag : getTag st.tags el be.key = none)
    (hx : be.hasExit = true) :
    (visitMutation d j { addedNodes := [], removedNodes := [el] } st).exitProcess =
        st.exitProcess ++ [(be.id, el)] ∧
      (visitMutation d j { addedNodes := [], removedNodes := [el] } st).exitCalls =
        st.exitCalls ++ [(be.id, el, none)] := by
  unfold visitMutation
  dsimp only
  rw [List.foldl_nil, List.foldl_cons, List.foldl_nil, hbe]
  dsimp only
  rw [hmatch, if_pos rfl]
  exact ⟨doExit_exitProcess j none el st be hbe,
    doExit_untagged_exitCalls j none el st be hbe htag hx⟩



theorem claim_C3_witness :
    (0 < ([some 7] : List (Option Nat)).length) ∧
      (doExitPre 0 (some 0) 7 (visitEnter 0 7 (addBehavior ".a" (fun _ => true)
          false (fun _ _ => true) false OState.start))).behaviors[0]? =
        some { id := 0, selector := ".a", initRet := (fun _ => true),
               hasExit := false, exitRet := (fun _ _ => true),
               key := "__onmount:1", detectMutate := false,
               loaded := [none] } :=
  ⟨by decide,
    (claim_C3 (visitEnter 0 7 (addBehavior ".a" (fun _ => true) false
        (fun _ _ => true) false OState.start)) 0 0 7
      { id := 0, selector := ".a", initRet := (fun _ => true), hasExit := false,
        exitRet := (fun _ _ => true), key := "__onmount:1",
        detectMutate := false, loaded := [some 7] } rfl (by decide)).2.1⟩

theorem claim_C4_witness :
    isAttached demoDom 9 = false ∧
      (visitExit demoDom 0 (some 9) 0 [] (addBehavior ".a" (fun _ => true)
          false (fun _ _ => true) false OState.start)).exitProcess = [(0, 9)] :=
  ⟨by decide,
    ((claim_C4 demoDom (addBehavior ".a" (fun _ => true) false
        (fun _ _ => true) false OState.start) 0 0 9 []
      { id := 0, selector := ".a", initRet := (fun _ => true), hasExit := false,
        exitRet := (fun _ _ => true), key := "__onmount:1",
        detectMutate := false, loaded := [] } rfl).2 rfl)⟩

theorem claim_C10_witness :
    demoDom.elMatches 7 ".a" = true ∧
      (visitMutation demoDom 0
          ({ addedNodes := [], removedNodes := [7] } : Mutation)
          (addBehavior ".a" (fun _ => true) true (fun _ _ => true) false
            OState.start)).exitCalls = [(0, 7, none)] :=
  ⟨by decide,
    (claim_C10 demoDom (addBehavior ".a" (fun _ => true) true
        (fun _ _ => true) false OState.start) 0 7
      { id := 0, selector := ".a", initRet := (fun _ => true), hasExit := true,
        exitRet := (fun _ _ => true), key := "__onmount:1",
        detectMutate := false, loaded := [] } rfl (by decide) rfl rfl).2⟩


/-! ## Teardown: claim C8 -/

theorem doExit_behaviors (j i el : Nat) (st : OState) (be : Behavior)
    (hbe : st.behaviors[j]? = some be) :
    (doExit j (some i) el st).behaviors =
      st.behaviors.set j { be with loaded := be.loaded.set i none } := by
  unfold doExit
  rw [hbe]
  dsimp only
  split
  · split
    · rfl
    · rfl
  · rfl

theorem set_replicate_append (m : Nat) (x : Option Nat)
    (rest : List (Option Nat)) :
    ((List.replicate m (none : Option Nat)) ++ x :: rest).set m none =
      List.replicate m none ++ none :: rest := by
  induction m with
  | zero => rfl
  | succ m ih => simp [List.replicate_succ, ih]

theorem getElem?_replicate_append (m : Nat) (rest : List (Option Nat)) :
    ((List.replicate m (none : Option Nat)) ++ rest)[m]? = rest[0]? := by
  rw [List.getElem?_append_right (by simp)]
  simp

theorem teardownBe_aux (j : Nat) (st : OState) (be : Behavior)
    (hbe : st.behaviors[j]? = some be) (m : Nat) (hm : m ≤ be.loaded.length) :
    ((List.range m).foldl
        (fun s i => match loadedAt s j i with
          | some el => doExit j (some i) el s
          | none => s) st).exitProcess =
      st.exitProcess ++ (be.loaded.take m).filterMap
        (fun o => o.map (fun el => (be.id, el))) ∧
    ((List.range m).foldl
        (fun s i => match loadedAt s j i with
          | some el => doExit j (some i) el s
          | none => s) st).behaviors[j]? =
      some { be with loaded := List.replicate m none ++ be.loaded.drop m } ∧
    (∀ k, k ≠ j → ((List.range m).foldl
        (fun s i => match loadedAt s j i with
          | some el => doExit j (some i) el s
          | none => s) st).behaviors[k]? = st.behaviors[k]?) := by
  induction m with
  | zero =>
    refine ⟨by simp, ?_, fun k _ => rfl⟩
    simpa using hbe
  | succ m ih =>
    obtain ⟨ih1, ih2, ih3⟩ := ih (Nat.le_of_succ_le hm)
    have hmlt : m < be.loaded.length := Nat.lt_of_succ_le hm
    rw [List.range_succ, List.foldl_append, List.foldl_cons, List.foldl_nil]
    have hread : loadedAt ((List.range m).foldl
        (fun s i => match loadedAt s j i with
          | some el => doExit j (some i) el s
          | none => s) st) j m = (be.loaded[m]?).getD none := by
      rw [loadedAt_eq, loadedOf_eq ih2]
      dsimp only
      rw [List.getD_eq_getElem?_getD, getElem?_replicate_append,
        List.getElem?_drop, Nat.add_zero]
    have hdropcons : be.loaded.drop m = be.loaded[m] :: be.loaded.drop (m + 1) :=
      List.drop_eq_getElem_cons hmlt
    have hgetsome : be.loaded[m]? = some be.loaded[m] :=
      (List.getElem?_eq_some_getElem_iff be.loaded m hmlt).mpr trivial
    cases hob : be.loaded[m] with
    | none =>
      rw [hread, hgetsome, hob]
      dsimp only [Option.getD_some]
      refine ⟨?_, ?_, ih3⟩
      · rw [ih1, List.take_succ, List.filterMap_append, hgetsome, hob]
        simp
      · rw [ih2, List.replicate_succ' m, List.append_assoc]
        rw [hdropcons, hob]
        rfl
    | some el =>
      rw [hread, hgetsome, hob]
      dsimp only [Option.getD_some]
      have hbem := ih2
      refine ⟨?_, ?_, ?_⟩
      · rw [doExit_exitProcess j (some m) el _ _ hbem, ih1,
          List.take_succ, List.filterMap_append, hgetsome, hob]
        simp
      · rw [doExit_behaviors j m el _ _ hbem,
          List.getElem?_set_self (lt_of_getElem?_some hbem)]
        dsimp only
        rw [hdropcons, hob, set_replicate_append, List.replicate_succ' m,
          List.append_assoc]
        rfl
      · intro k hk
        rw [doExit_behaviors j m el _ _ hbem,
          List.getElem?_set_ne (fun hc => hk hc.symm), ih3 k hk]



theorem teardownBe_spec (j : Nat) (st : OState) (be : Behavior)
    (hbe : st.behaviors[j]? = some be) :
    (teardownBe j st).exitProcess = st.exitProcess ++
        be.loaded.filterMap (fun o => o.map (fun el => (be.id, el))) ∧
      (teardownBe j st).behaviors[j]? =
        some { be with loaded := List.replicate be.loaded.length none } ∧
      (∀ k, k ≠ j → (teardownBe j st).behaviors[k]? = st.behaviors[k]?) := by
  have hbody : teardownBe j st = (List.range be.loaded.length).foldl
      (fun s i => match loadedAt s j i with
        | some el => doExit j (some i) el s
        | none => s) st := by
    unfold teardownBe
    rw [hbe]
  obtain ⟨h1, h2, h3⟩ := teardownBe_aux j st be hbe be.loaded.length (Nat.le_refl _)
  rw [List.take_length] at h1
  rw [List.drop_length, List.append_nil] at h2
  rw [hbody]
  exact ⟨h1, h2, h3⟩

theorem teardown_aux (st : OState) (m : Nat) (hm : m ≤ st.behaviors.length) :
    ((List.range m).foldl (fun s j => teardownBe j s) st).exitProcess =
      st.exitProcess ++ ((st.behaviors.take m).map
        (fun be => be.loaded.filterMap
          (fun o => o.map (fun el => (be.id, el))))).flatten ∧
    (∀ k, m ≤ k → ((List.range m).foldl (fun s j => teardownBe j s)
        st).behaviors[k]? = st.behaviors[k]?) ∧
    (∀ k, k < m → ∀ b, st.behaviors[k]? = some b →
      ((List.range m).foldl (fun s j => teardownBe j s) st).behaviors[k]? =
        some { b with loaded := List.replicate b.loaded.length none }) := by
  induction m with
  | zero => exact ⟨by simp, fun k _ => rfl, fun k hk => absurd hk (Nat.not_lt_zero k)⟩
  | succ m ih =>
    obtain ⟨ih1, ih2, ih3⟩ := ih (Nat.le_of_succ_le hm)
    have hmlt : m < st.behaviors.length := Nat.lt_of_succ_le hm
    have hgetsome : st.behaviors[m]? = some st.behaviors[m] :=
      (List.getElem?_eq_some_getElem_iff st.behaviors m hmlt).mpr trivial
    rw [List.range_succ, List.foldl_append, List.foldl_cons, List.foldl_nil]
    have hbem : ((List.range m).foldl (fun s j => teardownBe j s)
        st).behaviors[m]? = some st.behaviors[m] := by
      rw [ih2 m (Nat.le_refl m)]
      exact hgetsome
    obtain ⟨g1, g2, g3⟩ := teardownBe_spec m _ _ hbem
    refine ⟨?_, ?_, ?_⟩
    · rw [g1, ih1, List.append_assoc]
      congr 1
      rw [List.take_succ, hgetsome]
      rw [List.map_append, List.flatten_append]
      simp
    · intro k hk
      rw [g3 k (fun hc => Nat.not_succ_le_self m (hc ▸ hk)), ih2 k (Nat.le_of_succ_le hk)]
    · intro k hk b hb
      by_cases hkm : k = m
      · subst hkm
        rw [hgetsome] at hb
        injection hb with hb
        rw [g2, hb]
      · rw [g3 k hkm, ih3 k (Nat.lt_of_le_of_ne (Nat.le_of_lt_succ hk) hkm) b hb]

/-- C8: `teardown()` runs exit processing exactly once for every
non-tombstoned slot of every behavior's active list, behaviors in
registration order and slots in list order, and leaves every slot
tombstoned.  `teardown` consumes no `Dom`: it never consults attachment
state or the query. -/
theorem claim_C8 (st : OState) :
    (teardown st).exitProcess = st.exitProcess ++
        (st.behaviors.map (fun be => be.loaded.filterMap
          (fun o => o.map (fun el => (be.id, el))))).flatten ∧
      ∀ be, be ∈ (teardown st).behaviors → ∀ o, o ∈ be.loaded → o = none := by
  obtain ⟨h1, h2, h3⟩ := teardown_aux st st.behaviors.length (Nat.le_refl _)
  have hbody : teardown st = (List.range st.behaviors.length).foldl
      (fun s j => teardownBe j s) st := rfl
  rw [List.take_length] at h1
  refine ⟨by rw [hbody]; exact h1, ?_⟩
  intro be hbe o ho
  rw [hbody] at hbe
  rw [List.mem_iff_getElem?] at hbe
  obtain ⟨k, hk⟩ := hbe
  by_cases hklt : k < st.behaviors.length
  · have hsome : st.behaviors[k]? = some st.behaviors[k] :=
      (List.getElem?_eq_some_getElem_iff st.behaviors k hklt).mpr trivial
    have := h3 k hklt st.behaviors[k] hsome
    rw [this] at hk
    injection hk with hk
    subst hk
    exact List.eq_of_mem_replicate ho
  · rw [h2 k (Nat.le_of_not_lt hklt)] at hk
    rw [List.getElem?_eq_none_iff.mpr (Nat.le_of_not_lt hklt)] at hk
    exact Option.noConfusion hk



theorem claim_C8_witness :
    (teardown (visitEnter 1 8 (visitEnter 0 7 (addBehavior ".b"
        (fun _ => true) true (fun _ _ => true) false (addBehavior ".a"
        (fun _ => true) true (fun _ _ => true) false
        OState.start))))).exitProcess = [(0, 7), (1, 8)] :=
  (claim_C8 (visitEnter 1 8 (visitEnter 0 7 (addBehavior ".b"
    (fun _ => true) true (fun _ _ => true) false (addBehavior ".a"
    (fun _ => true) true (fun _ _ => true) false OState.start))))).1


/-! ## Selector isolation: claim C9 -/

theorem foldl_pres_mem {α : Type} (P : OState → Prop) (f : OState → α → OState)
    (l : List α) (st : OState) (h : P st)
    (hf : ∀ s a, a ∈ l → P s → P (f s a)) : P (l.foldl f st) := by
  induction l generalizing st with
  | nil => exact h
  | cons a l ih =>
    exact ih (f st a) (hf st a (List.mem_cons_self a l) h)
      (fun s b hb => hf s b (List.mem_cons_of_mem a hb))

theorem visitEnter_frame (j el : Nat) (s : OState) (bj : Behavior)
    (hbj : s.behaviors[j]? = some bj) :
    (∀ k, k ≠ j → (visitEnter j el s).behaviors[k]? = s.behaviors[k]?) ∧
      (∀ el' k, k ≠ bj.key →
        getTag (visitEnter j el s).tags el' k = getTag s.tags el' k) ∧
      (∀ b, b ≠ bj.id → entersFor (visitEnter j el s) b = entersFor s b) ∧
      ((visitEnter j el s).exitProcess = s.exitProcess) ∧
      ((visitEnter j el s).exitCalls = s.exitCalls) := by
  unfold visitEnter
  rw [hbj]
  dsimp only
  split
  · exact ⟨fun _ _ => rfl, fun _ _ _ => rfl, fun _ _ => rfl, rfl, rfl⟩
  · split
    · refine ⟨fun k hk => ?_, fun el' k hk => ?_, fun b hb => ?_, rfl, rfl⟩
      · dsimp only
        rw [List.getElem?_set_ne (fun hc => hk hc.symm)]
      · dsimp only
        exact getTag_setTag_ne _ _ _ _ _ _ (fun hc => hk hc.2)
      · dsimp only [entersFor]
        rw [List.filter_append]
        simp [Ne.symm hb]
    · refine ⟨fun _ _ => rfl, fun _ _ _ => rfl, fun b hb => ?_, rfl, rfl⟩
      dsimp only [entersFor]
      rw [List.filter_append]
      simp [Ne.symm hb]

theorem doExit_frame (j : Nat) (iOpt : Option Nat) (el : Nat) (s : OState)
    (bj : Behavior) (hbj : s.behaviors[j]? = some bj) :
    (∀ k, k ≠ j → (doExit j iOpt el s).behaviors[k]? = s.behaviors[k]?) ∧
      (∀ el' k, k ≠ bj.key →
        getTag (doExit j iOpt el s).tags el' k = getTag s.tags el' k) ∧
      ((doExit j iOpt el s).enterCalls = s.enterCalls) ∧
      (∀ b, b ≠ bj.id → exitPFor (doExit j iOpt el s) b = exitPFor s b) ∧
      (∀ b, b ≠ bj.id → exitCFor (doExit j iOpt el s) b = exitCFor s b) := by
  unfold doExit
  rw [hbj]
  dsimp only
  split
  · split
    · refine ⟨fun k hk => ?_, fun el' k hk => ?_, rfl, fun b hb => ?_, fun b hb => ?_⟩
      · dsimp only
        rw [List.getElem?_set_ne (fun hc => hk hc.symm)]
      · dsimp only
        exact getTag_delTag_ne _ _ _ _ _ (fun hc => hk hc.2)
      · dsimp only [exitPFor]
        rw [List.filter_append]
        simp [Ne.symm hb]
      · dsimp only [exitCFor]
        rw [List.filter_append]
        simp [Ne.symm hb]
    · refine ⟨fun k hk => ?_, fun _ _ _ => rfl, rfl, fun b hb => ?_, fun b hb => ?_⟩
      · dsimp only
        rw [List.getElem?_set_ne (fun hc => hk hc.symm)]
      · dsimp only [exitPFor]
        rw [List.filter_append]
        simp [Ne.symm hb]
      · dsimp only [exitCFor]
        rw [List.filter_append]
        simp [Ne.symm hb]
  · refine ⟨fun k hk => ?_, fun _ _ _ => rfl, rfl, fun b hb => ?_, fun _ _ => rfl⟩
    · dsimp only
      rw [List.getElem?_set_ne (fun hc => hk hc.symm)]
    · dsimp only [exitPFor]
      rw [List.filter_append]
      simp [Ne.symm hb]

theorem visitExit_frame (d : Dom) (j i : Nat) (elOpt : Option Nat)
    (L : List Nat) (s : OState) (bj : Behavior)
    (hbj : s.behaviors[j]? = some bj) :
    (∀ k, k ≠ j → (visitExit d j elOpt i L s).behaviors[k]? = s.behaviors[k]?) ∧
      (∀ el' k, k ≠ bj.key →
        getTag (visitExit d j elOpt i L s).tags el' k = getTag s.tags el' k) ∧
      ((visitExit d j elOpt i L s).enterCalls = s.enterCalls) ∧
      (∀ b, b ≠ bj.id → exitPFor (visitExit d j elOpt i L s) b = exitPFor s b) ∧
      (∀ b, b ≠ bj.id → exitCFor (visitExit d j elOpt i L s) b = exitCFor s b) := by
  cases elOpt with
  | none =>
    exact ⟨fun _ _ => rfl, fun _ _ _ => rfl, rfl, fun _ _ => rfl, fun _ _ => rfl⟩
  | some el =>
    unfold visitExit
    rw [hbj]
    dsimp only
    split
    · split
      · exact ⟨fun _ _ => rfl, fun _ _ _ => rfl, rfl, fun _ _ => rfl, fun _ _ => rfl⟩
      · exact doExit_frame j (some i) el s bj hbj
    · split
      · exact ⟨fun _ _ => rfl, fun _ _ _ => rfl, rfl, fun _ _ => rfl, fun _ _ => rfl⟩
      · exact doExit_frame j (some i) el s bj hbj



theorem pollIdx_meta (d : Dom) (j : Nat) (s : OState) :
    MetaStable s.behaviors (pollIdx d j s).behaviors := by
  unfold pollIdx
  cases hbe : s.behaviors[j]? with
  | none => exact metaStable_refl _
  | some be =>
    dsimp only
    have h1 := foldl_pres (fun s2 => MetaStable s.behaviors s2.behaviors)
      (fun s2 i => visitExit d j (loadedAt s2 j i) i (d.query be.selector) s2)
      (List.range be.loaded.length) s (metaStable_refl _)
      (fun s2 i h => metaStable_trans h (visitExit_meta d j _ i _ s2))
    exact foldl_pres (fun s2 => MetaStable s.behaviors s2.behaviors)
      (fun s2 el => visitEnter j el s2) (d.query be.selector) _ h1
      (fun s2 el h => metaStable_trans h (visitEnter_meta j el s2))

theorem pollIdx_frame (d : Dom) (j : Nat) (s : OState) (bj : Behavior)
    (hbj : s.behaviors[j]? = some bj) :
    (∀ k, k ≠ j → (pollIdx d j s).behaviors[k]? = s.behaviors[k]?) ∧
      (∀ el' k, k ≠ bj.key →
        getTag (pollIdx d j s).tags el' k = getTag s.tags el' k) ∧
      (∀ b, b ≠ bj.id → entersFor (pollIdx d j s) b = entersFor s b) ∧
      (∀ b, b ≠ bj.id → exitPFor (pollIdx d j s) b = exitPFor s b) ∧
      (∀ b, b ≠ bj.id → exitCFor (pollIdx d j s) b = exitCFor s b) := by
  rw [pollIdx_eq d j s bj hbj]
  have main : ∀ (s2 : OState),
      (MetaStable s.behaviors s2.behaviors ∧
        (∀ k, k ≠ j → s2.behaviors[k]? = s.behaviors[k]?) ∧
        (∀ el' k, k ≠ bj.key → getTag s2.tags el' k = getTag s.tags el' k) ∧
        (∀ b, b ≠ bj.id → entersFor s2 b = entersFor s b) ∧
        (∀ b, b ≠ bj.id → exitPFor s2 b = exitPFor s b) ∧
        (∀ b, b ≠ bj.id → exitCFor s2 b = exitCFor s b)) →
      ∀ be2, s2.behaviors[j]? = some be2 → be2.key = bj.key ∧ be2.id = bj.id := by
    rintro s2 ⟨hms, _⟩ be2 hbe2
    obtain ⟨b', hb', l1, hbl⟩ := hms.2 j bj hbj
    rw [hbe2] at hb'
    injection hb' with hb'
    subst hb'
    subst hbl
    exact ⟨rfl, rfl⟩
  have hexit := foldl_pres (fun s2 =>
      MetaStable s.behaviors s2.behaviors ∧
        (∀ k, k ≠ j → s2.behaviors[k]? = s.behaviors[k]?) ∧
        (∀ el' k, k ≠ bj.key → getTag s2.tags el' k = getTag s.tags el' k) ∧
        (∀ b, b ≠ bj.id → entersFor s2 b = entersFor s b) ∧
        (∀ b, b ≠ bj.id → exitPFor s2 b = exitPFor s b) ∧
        (∀ b, b ≠ bj.id → exitCFor s2 b = exitCFor s b))
    (fun s2 i => visitExit d j (loadedAt s2 j i) i (d.query bj.selector) s2)
    (List.range bj.loaded.length) s
    ⟨metaStable_refl _, fun _ _ => rfl, fun _ _ _ => rfl, fun _ _ => rfl,
      fun _ _ => rfl, fun _ _ => rfl⟩ ?_
  · have hfull := foldl_pres (fun s2 =>
        MetaStable s.behaviors s2.behaviors ∧
          (∀ k, k ≠ j → s2.behaviors[k]? = s.behaviors[k]?) ∧
          (∀ el' k, k ≠ bj.key → getTag s2.tags el' k = getTag s.tags el' k) ∧
          (∀ b, b ≠ bj.id → entersFor s2 b = entersFor s b) ∧
          (∀ b, b ≠ bj.id → exitPFor s2 b = exitPFor s b) ∧
          (∀ b, b ≠ bj.id → exitCFor s2 b = exitCFor s b))
      (fun s2 el => visitEnter j el s2) (d.query bj.selector) _ hexit ?_
    · exact ⟨hfull.2.1, hfull.2.2.1, hfull.2.2.2.1, hfull.2.2.2.2.1,
        hfull.2.2.2.2.2⟩
    · rintro s2 el hP
      dsimp only
      cases hbe2 : s2.behaviors[j]? with
      | none =>
        have heq : visitEnter j el s2 = s2 := by unfold visitEnter; rw [hbe2]
        rw [heq]
        exact hP
      | some be2 =>
        obtain ⟨hkey, hid⟩ := main s2 hP be2 hbe2
        obtain ⟨f1, f2, f3, f4, f5⟩ := visitEnter_frame j el s2 be2 hbe2
        refine ⟨metaStable_trans hP.1 (visitEnter_meta j el s2),
          fun k hk => (f1 k hk).trans (hP.2.1 k hk),
          fun el' k hk => ((f2 el' k (hkey ▸ hk)).trans (hP.2.2.1 el' k hk)),
          fun b hb => ((f3 b (hid ▸ hb)).trans (hP.2.2.2.1 b hb)),
          fun b hb => ?_, fun b hb => ?_⟩
        · have h9 := hP.2.2.2.2.1 b hb
          unfold exitPFor at h9 ⊢
          rw [f4]
          exact h9
        · have h9 := hP.2.2.2.2.2 b hb
          unfold exitCFor at h9 ⊢
          rw [f5]
          exact h9
  · rintro s2 i hP
    dsimp only
    cases hbe2 : s2.behaviors[j]? with
    | none =>
      have heq : visitExit d j (loadedAt s2 j i) i (d.query bj.selector) s2 = s2 := by
        cases hl : loadedAt s2 j i with
        | none => rfl
        | some el => unfold visitExit; rw [hbe2]
      rw [heq]
      exact hP
    | some be2 =>
      obtain ⟨hkey, hid⟩ := main s2 hP be2 hbe2
      obtain ⟨f1, f2, f3, f4, f5⟩ := visitExit_frame d j i (loadedAt s2 j i)
        (d.query bj.selector) s2 be2 hbe2
      refine ⟨metaStable_trans hP.1 (visitExit_meta d j _ i _ s2),
        fun k hk => (f1 k hk).trans (hP.2.1 k hk),
        fun el' k hk => ((f2 el' k (hkey ▸ hk)).trans (hP.2.2.1 el' k hk)),
        fun b hb => ?_,
        fun b hb => ((f4 b (hid ▸ hb)).trans (hP.2.2.2.2.1 b hb)),
        fun b hb => ((f5 b (hid ▸ hb)).trans (hP.2.2.2.2.2 b hb))⟩
      have h9 := hP.2.2.2.1 b hb
      unfold entersFor at h9 ⊢
      rw [f3]
      exact h9



theorem mem_selIdxs {st : OState} {s : String} {j : Nat}
    (h : j ∈ selIdxs st s) :
    ∃ bj, st.behaviors[j]? = some bj ∧ bj.selector = s := by
  unfold selIdxs at h
  rw [List.mem_filter] at h
  obtain ⟨-, h2⟩ := h
  cases hbe : st.behaviors[j]? with
  | none => rw [hbe] at h2; exact Bool.noConfusion h2
  | some bj =>
    rw [hbe] at h2
    exact ⟨bj, rfl, of_decide_eq_true h2⟩

theorem pollSelector_no_match (d : Dom) (s : String) (st : OState)
    (h : ∀ be ∈ st.behaviors, be.selector ≠ s) : pollSelector d s st = st := by
  unfold pollSelector
  have hnil : selIdxs st s = [] := by
    unfold selIdxs
    apply List.filter_eq_nil_iff.mpr
    intro j hj
    cases hbe : st.behaviors[j]? with
    | none => simp
    | some be => simpa using h be (List.getElem?_mem hbe)
  rw [hnil]
  rfl

/-- C9: polling a selector runs only the poll closures registered under
exactly that selector string — every behavior under another selector keeps
its record (including its active list), its nodes' state tags, and its
enter/exit traces untouched — and polling a selector with no registered
behaviors is a no-op. -/
theorem claim_C9 (d : Dom) (s : String) (st : OState) :
    (∀ (k : Nat) (bk : Behavior), st.behaviors[k]? = some bk →
      bk.selector ≠ s →
      (∀ (j : Nat) (bj : Behavior), st.behaviors[j]? = some bj →
        bj.selector = s →
        bj.key ≠ bk.key ∧ bj.id ≠ bk.id) →
      (pollSelector d s st).behaviors[k]? = some bk ∧
        (∀ el, getTag (pollSelector d s st).tags el bk.key =
          getTag st.tags el bk.key) ∧
        entersFor (pollSelector d s st) bk.id = entersFor st bk.id ∧
        exitPFor (pollSelector d s st) bk.id = exitPFor st bk.id ∧
        exitCFor (pollSelector d s st) bk.id = exitCFor st bk.id) ∧
      ((∀ be ∈ st.behaviors, be.selector ≠ s) → pollSelector d s st = st) := by
  refine ⟨?_, pollSelector_no_match d s st⟩
  intro k bk hk hsel hdist
  unfold pollSelector
  refine foldl_pres_mem (fun s2 =>
      s2.behaviors[k]? = some bk ∧
        (∀ el, getTag s2.tags el bk.key = getTag st.tags el bk.key) ∧
        entersFor s2 bk.id = entersFor st bk.id ∧
        exitPFor s2 bk.id = exitPFor st bk.id ∧
        exitCFor s2 bk.id = exitCFor st bk.id ∧
        MetaStable st.behaviors s2.behaviors) _ (selIdxs st s) st
    ⟨hk, fun _ => rfl, rfl, rfl, rfl, metaStable_refl _⟩ ?_
    |>.imp id (fun h => ⟨h.1, h.2.1, h.2.2.1, h.2.2.2.1⟩)
  rintro s2 j hj ⟨p1, p2, p3, p4, p5, p6⟩
  obtain ⟨bj, hbj, hbjs⟩ := mem_selIdxs hj
  have hjk : j ≠ k := by
    intro hc
    subst hc
    rw [hk] at hbj
    injection hbj with hbj
    subst hbj
    exact hsel hbjs
  obtain ⟨hkey, hid⟩ := hdist j bj hbj hbjs
  obtain ⟨bj2, hbj2, l2, hbl2⟩ := p6.2 j bj hbj
  subst hbl2
  obtain ⟨f1, f2, f3, f4, f5⟩ := pollIdx_frame d j s2 _ hbj2
  refine ⟨(f1 k (fun hc => hjk hc.symm)).trans p1,
    fun el => (f2 el bk.key (Ne.symm hkey)).trans (p2 el),
    (f3 bk.id (Ne.symm hid)).trans p3,
    (f4 bk.id (Ne.symm hid)).trans p4,
    (f5 bk.id (Ne.symm hid)).trans p5,
    metaStable_trans p6 (pollIdx_meta d j s2)⟩



theorem claim_C9_witness :
    ((".b" : String) ≠ ".a") ∧
      (pollSelector demoDom ".a" (addBehavior ".b" (fun _ => true) false
          (fun _ _ => true) false (addBehavior ".a" (fun _ => true) false
          (fun _ _ => true) false OState.start))).behaviors[1]? =
        some { id := 1, selector := ".b", initRet := (fun _ => true),
               hasExit := false, exitRet := (fun _ _ => true),
               key := "__onmount:2", detectMutate := false, loaded := [] } := by
  refine ⟨by decide, ?_⟩
  refine ((claim_C9 demoDom ".a" (addBehavior ".b" (fun _ => true) false
      (fun _ _ => true) false (addBehavior ".a" (fun _ => true) false
      (fun _ _ => true) false OState.start))).1 1
    { id := 1, selector := ".b", initRet := (fun _ => true),
      hasExit := false, exitRet := (fun _ _ => true),
      key := "__onmount:2", detectMutate := false, loaded := [] }
    rfl (by decide) ?_).1
  intro j bj hbj hbjs
  cases j with
  | zero =>
    have h' : some ({ id := 0, selector := ".a",
                      initRet := (fun _ => true), hasExit := false,
                      exitRet := (fun _ _ => true), key := "__onmount:1",
                      detectMutate := false, loaded := [] } : Behavior) =
        some bj := hbj
    injection h' with h'
    subst h'
    exact ⟨by decide, by decide⟩
  | succ j =>
    cases j with
    | zero =>
      have h' : some ({ id := 1, selector := ".b",
                        initRet := (fun _ => true), hasExit := false,
                        exitRet := (fun _ _ => true), key := "__onmount:2",
                        detectMutate := false, loaded := [] } : Behavior) =
          some bj := hbj
      injection h' with h'
      subst h'
      exact absurd hbjs (by decide)
    | succ j =>
      exact Option.noConfusion (show (none : Option Behavior) = some bj from hbj)


/-! ## Correlation ids and the missing-exit-action bug: claims C5, C6, C1 -/

theorem visitEnter_idInv (j el : Nat) (st : OState) (h : IdInv st) :
    IdInv (visitEnter j el st) := by
  unfold visitEnter
  cases hbe : st.behaviors[j]? with
  | none => exact h
  | some be =>
    dsimp only
    split
    · exact h
    · obtain ⟨h1, h2, h3, h4⟩ := h
      split
      · refine ⟨?_, ?_, ?_, ?_⟩
        · intro c hc
          dsimp only at hc ⊢
          rcases List.mem_append.mp hc with hc | hc
          · exact Nat.le_succ_of_le (h1 c hc)
          · rw [List.mem_singleton] at hc
            subst hc
            exact Nat.le_succ _
        · dsimp only
          rw [List.map_append, List.pairwise_append]
          refine ⟨h2, by simp, ?_⟩
          intro a ha b hb
          rw [List.mem_map] at ha
          obtain ⟨c, hc, rfl⟩ := ha
          simp only [List.map_cons, List.map_nil, List.mem_singleton] at hb
          subst hb
          exact h1 c hc
        · intro t ht
          dsimp only at ht ⊢
          rcases List.mem_append.mp ht with ht | ht
          · exact Nat.lt_succ_of_lt (h3 t ht)
          · rw [List.mem_singleton] at ht
            subst ht
            exact Nat.lt_succ_self _
        · dsimp only
          rw [List.map_append, List.pairwise_append]
          refine ⟨h4, by simp, ?_⟩
          intro a ha b hb
          rw [List.mem_map] at ha
          obtain ⟨t, ht, rfl⟩ := ha
          simp only [List.map_cons, List.map_nil, List.mem_singleton] at hb
          subst hb
          exact h3 t ht
      · refine ⟨?_, ?_, h3, h4⟩
        · intro c hc
          dsimp only at hc ⊢
          rcases List.mem_append.mp hc with hc | hc
          · exact h1 c hc
          · rw [List.mem_singleton] at hc
            subst hc
            exact Nat.le_refl _
        · dsimp only
          rw [List.map_append, List.pairwise_append]
          refine ⟨h2, by simp, ?_⟩
          intro a ha b hb
          rw [List.mem_map] at ha
          obtain ⟨c, hc, rfl⟩ := ha
          simp only [List.map_cons, List.map_nil, List.mem_singleton] at hb
          subst hb
          exact h1 c hc

theorem idInv_of_empty (st : OState) (he : st.enterCalls = [])
    (ha : st.attachTrace = []) : IdInv st := by
  unfold IdInv
  rw [he, ha]
  simp

theorem runEnters_idInv (cmds : List (Nat × Nat)) (st : OState)
    (h : IdInv st) : IdInv (runEnters cmds st) := by
  unfold runEnters
  exact foldl_pres IdInv _ cmds st h
    (fun s c hs => visitEnter_idInv c.1 c.2 s hs)



/-- C6: across any sequence of enter calls over all behaviors, no two state
tags ever attached carry the same correlation id. -/
theorem claim_C6 (cmds : List (Nat × Nat)) (st : OState) (h : IdInv st) :
    ((runEnters cmds st).attachTrace.map Token.id).Pairwise (· ≠ ·) :=
  ((runEnters_idInv cmds st h).2.2.2).imp Nat.ne_of_lt

theorem claim_C6_witness :
    (addBehavior ".a" (fun _ => true) false (fun _ _ => true) false
      OState.start).enterCalls = [] ∧
    ((runEnters [(0, 3), (0, 4)] (addBehavior ".a" (fun _ => true) false
      (fun _ _ => true) false OState.start)).attachTrace.map
        Token.id).Pairwise (· ≠ ·) :=
  ⟨rfl,
    claim_C6 [(0, 3), (0, 4)] (addBehavior ".a" (fun _ => true) false
      (fun _ _ => true) false OState.start) (idInv_of_empty _ rfl rfl)⟩

/-- C5 (amended): correlation ids are nondecreasing across all enter
invocations, and strictly increasing — hence pairwise distinct — across the
invocations whose return value is not false (`cid` is incremented only on a
non-vetoed enter, so a vetoed invocation shares its id with the next one). -/
theorem claim_C5 (cmds : List (Nat × Nat)) (st : OState) (h : IdInv st) :
    ((runEnters cmds st).enterCalls.map (fun c => c.2.2.id)).Pairwise (· ≤ ·) ∧
      ((runEnters cmds st).attachTrace.map Token.id).Pairwise (· < ·) :=
  ⟨(runEnters_idInv cmds st h).2.1, (runEnters_idInv cmds st h).2.2.2⟩

/-- C5 as stated is false: after a vetoed enter invocation (enter action
returning false) the very next enter invocation receives the same
correlation id, because `cid++` only runs in the accepted branch
(src/index.js lines 198-202). -/
theorem claim_C5_counterexample :
    ¬ (((runEnters [(0, 0), (0, 1)] (addBehavior ".a"
        (fun el => decide (el ≠ 0)) false (fun _ _ => true) false
        OState.start)).enterCalls.map (fun c => c.2.2.id)).Pairwise
        (· ≠ ·)) := by
  decide

theorem claim_C5_witness :
    (addBehavior ".a" (fun el => decide (el ≠ 0)) false
      (fun _ _ => true) false OState.start).enterCalls = [] ∧
    (((runEnters [(0, 0), (0, 1)] (addBehavior ".a" (fun el => decide (el ≠ 0))
        false (fun _ _ => true) false OState.start)).enterCalls.map
        (fun c => c.2.2.id)).Pairwise (· ≤ ·) ∧
      ((runEnters [(0, 0), (0, 1)] (addBehavior ".a" (fun el => decide (el ≠ 0))
        false (fun _ _ => true) false OState.start)).attachTrace.map
        Token.id).Pairwise (· < ·)) :=
  ⟨rfl,
    claim_C5 [(0, 0), (0, 1)] (addBehavior ".a" (fun el => decide (el ≠ 0))
      false (fun _ _ => true) false OState.start) (idInv_of_empty _ rfl rfl)⟩

/-- C1 (code bug): with a behavior registered WITHOUT an exit action, exit
processing for a tagged node tombstones its slot but does NOT remove the
state tag: `doExit` guards the deletion with `if (this.exit && ...)`
(src/index.js lines 227-229), while the spec requires the tag to be removed
unless the exit action explicitly returns false — including when no exit
action was registered at all. -/
theorem claim_C1 :
    (doExit 0 none 5 (visitEnter 0 5 (addBehavior ".a" (fun _ => true) false
        (fun _ _ => true) false OState.start))).exitProcess = [(0, 5)] ∧
      loadedAt (doExit 0 none 5 (visitEnter 0 5 (addBehavior ".a"
        (fun _ => true) false (fun _ _ => true) false OState.start))) 0 0 =
        none ∧
      getTag (doExit 0 none 5 (visitEnter 0 5 (addBehavior ".a"
        (fun _ => true) false (fun _ _ => true) false
        OState.start))).tags 5 "__onmount:1" =
        some { id := 0, selector := ".a" } := by
  decide

end Onmount
